import Mathlib

/-!
# Recurrence-date calculator of the task scheduler

A shallow embedding of `pkg/api/nextdate.go` (`NextDate` and its helpers) and of the date
validation of `pkg/api/task.go`, together with the parts of Go's `time`, `strings` and
`strconv` packages that they call.

* A `time.Time` is an instant, counted in nanoseconds since 1970-01-01T00:00:00 UTC
  (Go has no leap seconds).  Calendar fields are those of the proleptic Gregorian calendar in
  UTC, the only location the calculator ever builds dates in.  The instant is an unbounded
  integer: the far ends of Go's representable range are outside the model.
* Go's `int` is 64 bits wide; `strconv.Atoi` rejects values outside that range, and no
  arithmetic of the calculator on accepted values can leave it.
* The unbounded `for` loops of the source take a `fuel` argument that bounds the number of
  iterations; `none` means that the loop was still running when the fuel ran out.
* `time.Now()` is an input of the functions that call it: the reading of the clock, with its
  calendar fields taken in UTC.
-/

/-- Errors of the calculator and of the library calls it makes. -/
inductive Error where
  /-- `time.Parse` failed (a `*time.ParseError`). -/
  | parse
  /-- `strconv.Atoi` failed (a `*strconv.NumError`). -/
  | num
  | ErrRepeatRequired
  | ErrInvalidTags
  | ErrMissingDaysValue
  | ErrInvalidWeekday
  | ErrInvalidDay
  /-- `errors.New("days must be greater than 0")`. -/
  | daysTooSmall
  /-- `errors.New("days must be less than 400 days")`. -/
  | daysTooLarge
  deriving DecidableEq, Repr

namespace GoTime

/-- Nanoseconds in a day. -/
def nsPerDay : Int := 86400000000000

/-- A `time.Time`: nanoseconds since the Unix epoch. -/
structure Time where
  ns : Int
  deriving DecidableEq, Repr

/-- Go `isLeap`. -/
def isLeap (year : Int) : Bool :=
  year % 4 == 0 && (year % 100 != 0 || year % 400 == 0)

/-- Days from 1970-01-01 to January 1 of `year` (Go `daysSinceEpoch`, moved to the Unix
epoch). -/
def daysSinceEpoch (year : Int) : Int :=
  let y := year - 1
  365 * y + y / 4 - y / 100 + y / 400 - 719162

/-- Go's `daysBefore` table, indexed by the 1-based month: days of a non-leap year that
precede the month. -/
def daysBefore (month : Int) : Int :=
  if month ≤ 1 then 0 else if month = 2 then 31 else if month = 3 then 59
  else if month = 4 then 90 else if month = 5 then 120 else if month = 6 then 151
  else if month = 7 then 181 else if month = 8 then 212 else if month = 9 then 243
  else if month = 10 then 273 else if month = 11 then 304 else if month = 12 then 334
  else 365

/-- Go `daysIn`. -/
def daysIn (month year : Int) : Int :=
  if month = 2 ∧ isLeap year = true then 29 else daysBefore (month + 1) - daysBefore month

/-- Day number (days since 1970-01-01) of `time.Date(year, month, day, ...)`: the month is
normalised into the year, the day is added linearly, so out-of-range values roll over. -/
def dateToDays (year month day : Int) : Int :=
  let m := month - 1
  let year := year + m / 12
  let month := m % 12 + 1
  daysSinceEpoch year + daysBefore month
    + (if isLeap year = true ∧ 3 ≤ month then 1 else 0) + (day - 1)

/-- Year and zero-based day of the year of a day number (Go `absDate`). -/
def absYear (d : Int) : Int × Int :=
  let a := d + 719162
  let n400 := a / 146097
  let r400 := a % 146097
  let c := r400 / 36524
  let n100 := c - c / 4
  let r100 := r400 - 36524 * n100
  let n4 := r100 / 1461
  let r4 := r100 % 1461
  let k := r4 / 365
  let n1 := k - k / 4
  (400 * n400 + 100 * n100 + 4 * n4 + n1 + 1, r4 - 365 * n1)

/-- Month and day of the month of a zero-based day of the year (second half of Go
`absDate`). -/
def ydayToMonthDay (leap : Bool) (yday : Int) : Int × Int :=
  if leap = true ∧ yday = 31 + 29 - 1 then (2, 29)
  else
    let day := if leap = true ∧ yday > 31 + 29 - 1 then yday - 1 else yday
    let month := day / 31
    let e := daysBefore (month + 2)
    if day ≥ e then (month + 2, day - e + 1)
    else (month + 1, day - daysBefore (month + 1) + 1)

/-- Day number of an instant. -/
def Time.absDay (t : Time) : Int := t.ns / nsPerDay

def Time.Year (t : Time) : Int := (absYear t.absDay).1

def Time.Month (t : Time) : Int :=
  (ydayToMonthDay (isLeap t.Year) (absYear t.absDay).2).1

def Time.Day (t : Time) : Int :=
  (ydayToMonthDay (isLeap t.Year) (absYear t.absDay).2).2

/-- Go `Weekday`: Sunday = 0, ..., Saturday = 6 (1970-01-01 was a Thursday). -/
def Time.Weekday (t : Time) : Int := (t.absDay + 4) % 7

/-- Go `time.Date(year, month, day, hour, min, sec, nsec, time.UTC)`. -/
def Date (year month day hour min sec nsec : Int) : Time :=
  ⟨dateToDays year month day * nsPerDay + ((hour * 60 + min) * 60 + sec) * 1000000000 + nsec⟩

/-- Go `t.AddDate(years, months, days)`: `Date` of the shifted fields, same time of day. -/
def Time.AddDate (t : Time) (years months days : Int) : Time :=
  ⟨dateToDays (t.Year + years) (t.Month + months) (t.Day + days) * nsPerDay + t.ns % nsPerDay⟩

def Time.After (t u : Time) : Bool := decide (u.ns < t.ns)

def Time.Before (t u : Time) : Bool := decide (t.ns < u.ns)

/-- Go `appendInt`: decimal digits of `x`, zero-padded to `width`, after a minus sign if
`x` is negative. -/
def appendInt (x : Int) (width : Nat) : List Char :=
  let ds := Nat.toDigits 10 x.natAbs
  (if x < 0 then ['-'] else []) ++ (List.replicate (width - ds.length) '0' ++ ds)

/-- Go `t.Format(TimeFormat)` for the layout `"20060102"`. -/
def Time.Format (t : Time) : String :=
  String.mk (appendInt t.Year 4 ++ (appendInt t.Month 2 ++ appendInt t.Day 2))

def isDigit (c : Char) : Bool := decide (48 ≤ c.toNat ∧ c.toNat ≤ 57)

def digitVal (c : Char) : Int := (c.toNat : Int) - 48

/-- Go `time.Parse(TimeFormat, value)` for the layout `"20060102"`: exactly four digits of
year, two of month (1..12) and two of day (1..days in that month), nothing else. -/
def Parse (value : String) : Except Error Time :=
  match value.data with
  | [y1, y2, y3, y4, m1, m2, d1, d2] =>
    if isDigit y1 && isDigit y2 && isDigit y3 && isDigit y4 && isDigit m1 && isDigit m2
        && isDigit d1 && isDigit d2 then
      let year := digitVal y1 * 1000 + digitVal y2 * 100 + digitVal y3 * 10 + digitVal y4
      let month := digitVal m1 * 10 + digitVal m2
      let day := digitVal d1 * 10 + digitVal d2
      if month ≤ 0 ∨ 12 < month then .error .parse
      else if day < 1 ∨ day > daysIn month year then .error .parse
      else .ok (Date year month day 0 0 0 0)
    else .error .parse
  | _ => .error .parse

/-- Value of a string of decimal digits, most significant first, continuing from `acc`;
`none` at the first character that is not a digit. -/
def digitsValue : List Char → Nat → Option Nat
  | [], acc => some acc
  | c :: cs, acc => if isDigit c then digitsValue cs (acc * 10 + (c.toNat - 48)) else none

/-- Go `strconv.Atoi` on a 64-bit platform: an optional sign, at least one decimal digit,
nothing else, and a value that fits an `int`. -/
def Atoi (s : String) : Except Error Int :=
  match s.data with
  | [] => .error .num
  | c :: cs =>
    let neg := c == '-'
    let ds := if c == '-' || c == '+' then cs else c :: cs
    match ds with
    | [] => .error .num
    | _ :: _ =>
      match digitsValue ds 0 with
      | none => .error .num
      | some n =>
        let v : Int := if neg then -(n : Int) else (n : Int)
        if v < -9223372036854775808 ∨ 9223372036854775807 < v then .error .num
        else .ok v

/-- Pieces of a character list between the occurrences of `sep`. -/
def splitChars (sep : Char) : List Char → List (List Char)
  | [] => [[]]
  | c :: cs =>
    if c = sep then [] :: splitChars sep cs
    else
      match splitChars sep cs with
      | [] => [[c]]
      | p :: ps => (c :: p) :: ps

/-- Go `strings.Split(s, sep)` for a one-character separator: always at least one piece. -/
def Split (s : String) (sep : Char) : List String :=
  (splitChars sep s.data).map String.mk

end GoTime

namespace api

open GoTime

def maxDailyDays : Int := 400
def sundayWeekday : Int := 7
def daysInWeek : Int := 7
def maxMonthDay : Int := 31
def minMonthDay : Int := -2

def contains (slice : List Int) (item : Int) : Bool :=
  match slice with
  | [] => false
  | v :: rest => if v = item then true else contains rest item

/-- The `for` loop of `parseIntList`: the first token that `Atoi` rejects ends it. -/
def parseIntList.loop : List String → List Int → Except Error (List Int)
  | [], result => .ok result
  | part :: parts, result =>
    match Atoi part with
    | .error e => .error e
    | .ok num => parseIntList.loop parts (result ++ [num])

def parseIntList (s : String) : Except Error (List Int) :=
  parseIntList.loop (Split s ',') []

/-- The first loop of `parseWeekdays`: is some day outside `1..daysInWeek`? -/
def parseWeekdays.outOfRange : List Int → Bool
  | [] => false
  | day :: days => if day < 1 ∨ day > daysInWeek then true else parseWeekdays.outOfRange days

/-- The second loop of `parseWeekdays`: Sunday (7) becomes 0, as in `time.Weekday`. -/
def parseWeekdays.adjust : List Int → List Int → List Int
  | [], adjusted => adjusted
  | day :: days, adjusted =>
    if day = sundayWeekday then parseWeekdays.adjust days (adjusted ++ [0])
    else parseWeekdays.adjust days (adjusted ++ [day])

def parseWeekdays (s : String) : Except Error (List Int) :=
  match parseIntList s with
  | .error e => .error e
  | .ok days =>
    if parseWeekdays.outOfRange days then .error .ErrInvalidWeekday
    else .ok (parseWeekdays.adjust days [])

def validateMonthDays : List Int → Bool
  | [] => true
  | day :: days =>
    if day > maxMonthDay ∨ day = 0 ∨ day < minMonthDay then false else validateMonthDays days

/-- The loop over `days` of `isValidMonthDay`. -/
def isValidMonthDay.loop (date : Time) (currentDay : Int) : List Int → Bool
  | [] => false
  | day :: days =>
    if day > 0 then
      if day = currentDay then true else isValidMonthDay.loop date currentDay days
    else
      let lastDay := (Date date.Year (date.Month + 1) 0 0 0 0 0).Day
      let actualDay := lastDay + day + 1
      if actualDay = currentDay then true else isValidMonthDay.loop date currentDay days

def isValidMonthDay (date : Time) (days months : List Int) : Bool :=
  let currentMonth := date.Month
  let currentDay := date.Day
  if months.length > 0 ∧ contains months currentMonth = false then false
  else isValidMonthDay.loop date currentDay days

def calculateNextDate : Nat → Time → Time → (Time → Time) → Option Time
  | 0, _, _, _ => none
  | fuel + 1, now, date, nextFunc =>
    let date := nextFunc date
    if date.After now then some date else calculateNextDate fuel now date nextFunc

def handleDaily (fuel : Nat) (now date : Time) (repParts : List String) :
    Option (Except Error String) :=
  match repParts with
  | _ :: p1 :: _ =>
    match Atoi p1 with
    | .error e => some (.error e)
    | .ok days =>
      if days < 1 then some (.error .daysTooSmall)
      else if days > maxDailyDays then some (.error .daysTooLarge)
      else
        match calculateNextDate fuel now date (fun d => d.AddDate 0 0 days) with
        | none => none
        | some date => some (.ok date.Format)
  | _ => some (.error .ErrMissingDaysValue)

def handleYearly (fuel : Nat) (now date : Time) : Option (Except Error String) :=
  match calculateNextDate fuel now date (fun d => d.AddDate 1 0 0) with
  | none => none
  | some date => some (.ok date.Format)

/-- The `for` loop of `handleWeekly`. -/
def handleWeekly.loop (now : Time) (weekdays : List Int) : Nat → Time → Option Time
  | 0, _ => none
  | fuel + 1, date =>
    let currentWeekday := date.Weekday
    if date.After now && contains weekdays currentWeekday then some date
    else handleWeekly.loop now weekdays fuel (date.AddDate 0 0 1)

def handleWeekly (fuel : Nat) (now date : Time) (repParts : List String) :
    Option (Except Error String) :=
  match repParts with
  | _ :: p1 :: _ =>
    match parseWeekdays p1 with
    | .error e => some (.error e)
    | .ok weekdays =>
      match handleWeekly.loop now weekdays fuel date with
      | none => none
      | some date => some (.ok date.Format)
  | _ => some (.error .ErrMissingDaysValue)

/-- The `for` loop of `handleMonthly`. -/
def handleMonthly.loop (now : Time) (days months : List Int) : Nat → Time → Option Time
  | 0, _ => none
  | fuel + 1, date =>
    if date.After now && isValidMonthDay date days months then some date
    else handleMonthly.loop now days months fuel (date.AddDate 0 0 1)

/-- The optional third part of a monthly rule: `months` stays empty (`nil`) without it. -/
def handleMonthly.months : List String → Except Error (List Int)
  | p2 :: _ => parseIntList p2
  | [] => .ok []

def handleMonthly (fuel : Nat) (now date : Time) (repParts : List String) :
    Option (Except Error String) :=
  match repParts with
  | _ :: p1 :: rest =>
    match parseIntList p1 with
    | .error e => some (.error e)
    | .ok days =>
      if !validateMonthDays days then some (.error .ErrInvalidDay)
      else
        match handleMonthly.months rest with
        | .error e => some (.error e)
        | .ok months =>
          match handleMonthly.loop now days months fuel date with
          | none => none
          | some date => some (.ok date.Format)
  | _ => some (.error .ErrMissingDaysValue)

/-- `NextDate(now, dateStr, repeat)` (`rule` is the source's `repeat`, a Lean keyword);
`fuel` bounds the iterations of the loop it runs. -/
def NextDate (fuel : Nat) (now : Time) (dateStr rule : String) :
    Option (Except Error String) :=
  if rule = "" then some (.error .ErrRepeatRequired)
  else
    match Parse dateStr with
    | .error e => some (.error e)
    | .ok date =>
      match Split rule ' ' with
      | [] => some (.error .ErrInvalidTags)
      | tag :: params =>
        if tag = "d" then handleDaily fuel now date (tag :: params)
        else if tag = "y" then handleYearly fuel now date
        else if tag = "w" then handleWeekly fuel now date (tag :: params)
        else if tag = "m" then handleMonthly fuel now date (tag :: params)
        else some (.error .ErrInvalidTags)

end api

/-! ## Validation of a task (`pkg/db/task.go`, `pkg/api/task.go`) -/

namespace db

/-- The `Task` record. -/
structure Task where
  ID : String
  Date : String
  Title : String
  Comment : String
  Repeat : String
  deriving DecidableEq, Repr

end db

namespace api

open GoTime

/-- Errors of `validateTask` and `validateAndAdjustDate`. -/
inductive TaskError where
  /-- `errors.New("Task title is required")`. -/
  | titleRequired
  /-- `fmt.Errorf("Invalid date format: %v", err)`. -/
  | invalidDateFormat (err : Error)
  /-- `fmt.Errorf("Failed to calculate next date: %v", err)`. -/
  | nextDateFailed (err : Error)
  deriving DecidableEq, Repr

def normalizeDate (t : Time) : Time :=
  Date t.Year t.Month t.Day 0 0 0 0

/-- `validateAndAdjustDate(task)` with `timeNow` the reading of `time.Now()`: the task as the
call leaves it and the error it returns (`none` for `nil`); `fuel` bounds the iterations of
the loop that `NextDate` runs. -/
def validateAndAdjustDate (fuel : Nat) (timeNow : Time) (task : db.Task) :
    Option (db.Task × Option TaskError) :=
  if task.Date = "" then some (task, none)
  else
    match Parse task.Date with
    | .error err => some (task, some (.invalidDateFormat err))
    | .ok parsedDate =>
      let now := normalizeDate timeNow
      let parsedDate := normalizeDate parsedDate
      if parsedDate.Before now then
        if task.Repeat = "" then some ({ task with Date := now.Format }, none)
        else
          match NextDate fuel now task.Date task.Repeat with
          | none => none
          | some (.error err) => some (task, some (.nextDateFailed err))
          | some (.ok next) => some ({ task with Date := next }, none)
      else some (task, none)

/-- `validateTask(task)`; `timeNow` and `timeNow2` are the readings of its own call of
`time.Now()` and of the call in `validateAndAdjustDate`. -/
def validateTask (fuel : Nat) (timeNow timeNow2 : Time) (task : db.Task) :
    Option (db.Task × Option TaskError) :=
  if task.Title = "" then some (task, some .titleRequired)
  else
    let task := if task.ID = "" ∧ task.Date = "" then { task with Date := timeNow.Format }
      else task
    validateAndAdjustDate fuel timeNow2 task

end api

/-! ## Vocabulary of the statements and proofs -/

namespace GoTime

/-- Length of a year in days. -/
def yearLen (year : Int) : Int := if isLeap year = true then 366 else 365

/-- Zero-based day of the year of day `day` of `month`. -/
def ydayOf (leap : Bool) (month day : Int) : Int :=
  daysBefore month + (if leap = true ∧ 3 ≤ month then 1 else 0) + (day - 1)

/-- Length of a month, given whether the year is a leap year. -/
def monthLen (leap : Bool) (month : Int) : Int :=
  if month = 2 ∧ leap = true then 29 else daysBefore (month + 1) - daysBefore month

/-- The specification of `ydayToMonthDay` at one day of the year. -/
abbrev YdayOk (leap : Bool) (yd : Int) : Prop :=
  1 ≤ (ydayToMonthDay leap yd).1 ∧ (ydayToMonthDay leap yd).1 ≤ 12 ∧
    1 ≤ (ydayToMonthDay leap yd).2 ∧
    (ydayToMonthDay leap yd).2 ≤ monthLen leap (ydayToMonthDay leap yd).1 ∧
    ydayOf leap (ydayToMonthDay leap yd).1 (ydayToMonthDay leap yd).2 = yd

/-- The inverse direction at one month and day. -/
abbrev MonthDayOk (leap : Bool) (m d : Int) : Prop :=
  d ≤ monthLen leap m → ydayToMonthDay leap (ydayOf leap m d) = (m, d)

/-- Value of a list of decimal digits, most significant first. -/
def digitsNat (l : List Char) : Nat := l.foldl (fun a c => a * 10 + (c.toNat - 48)) 0

/-- The integer that a list of characters written by `appendInt` denotes. -/
def readInt : List Char → Int
  | '-' :: l => -(digitsNat l : Int)
  | l => (digitsNat l : Int)

/-- A valid month and day lie inside the year. -/
abbrev YdayInYear (leap : Bool) (m d : Int) : Prop :=
  d ≤ monthLen leap m → 0 ≤ ydayOf leap m d ∧ ydayOf leap m d < 365 + (if leap then 1 else 0)

end GoTime

namespace api

open GoTime

/-- The instant `k` days after `t`, at the same time of day. -/
def shift (t : Time) (k : Int) : Time := ⟨t.ns + k * nsPerDay⟩

/-- The anniversary of `date` that lies `k` years later, in the words of the specification:
the same month and day `k` years on, a 29 February rolling over to 1 March when that year
is not a leap year. -/
def anniversary (date : Time) (k : Nat) : Time :=
  Date (date.Year + k) date.Month date.Day 0 0 0 0

/-- The month and day on which the yearly rule keeps a start date: its own, except that a
29 February is kept on 1 March. -/
def yearlyMonthDay (date : Time) : Int × Int :=
  if date.Month = 2 ∧ date.Day = 29 then (3, 1) else (date.Month, date.Day)

/-- The day `k` years after the year of `date`, on the month and day of `yearlyMonthDay`. -/
def yearlyTarget (date : Time) (k : Nat) : Time :=
  Date (date.Year + k) (yearlyMonthDay date).1 (yearlyMonthDay date).2 0 0 0 0

/-- A day selector of a monthly rule matches a day, in the words of the specification: a
positive selector matches the day of the month with that number, a negative selector `sel`
matches the day `(last day of that month) + sel + 1`. -/
def selectorMatches (t : Time) (sel : Int) : Prop :=
  (0 < sel ∧ t.Day = sel) ∨ (sel < 0 ∧ t.Day = daysIn t.Month t.Year + sel + 1)

/-- A day qualifies for a monthly rule, in the words of the specification: its day of the
month matches one of the selectors and its month is in the months list when one is given. -/
def monthlyMatch (t : Time) (days months : List Int) : Prop :=
  (∃ sel ∈ days, selectorMatches t sel) ∧ (months = [] ∨ t.Month ∈ months)

/-- The invalid-rule errors of the specification. -/
def invalidRule (e : Error) : Prop :=
  e = .ErrRepeatRequired ∨ e = .ErrInvalidTags

/-- The invalid-parameter errors of the specification: a missing parameter list, a token
that `Atoi` rejects, a value out of range. -/
def invalidParameter (e : Error) : Prop :=
  e = .ErrMissingDaysValue ∨ e = .num ∨ e = .daysTooSmall ∨ e = .daysTooLarge ∨
    e = .ErrInvalidWeekday ∨ e = .ErrInvalidDay

/-- A comma-separated list has a token that is not an integer. -/
def hasBadToken (list : String) : Prop :=
  ∃ part ∈ Split list ',', ∃ e, Atoi part = .error e

/-- A comma-separated list has a token whose integer value satisfies `bad`. -/
def hasValue (list : String) (bad : Int → Prop) : Prop :=
  ∃ part ∈ Split list ',', ∃ v, Atoi part = .ok v ∧ bad v

/-- The parameters of a rule with tag `d`, `w` or `m` are invalid, in the words of the
specification: the required list is missing, or a list contains a token that is not an
integer, or a parsed value is out of range (a daily interval outside `[1,400]`, a weekly day
outside `[1,7]`, a monthly day equal to 0, greater than 31 or less than -2). -/
def badParameters (tag : String) (params : List String) : Prop :=
  match params with
  | [] => tag = "d" ∨ tag = "w" ∨ tag = "m"
  | tok :: rest =>
    (tag = "d" ∧ ((∃ e, Atoi tok = .error e) ∨ ∃ n, Atoi tok = .ok n ∧ (n < 1 ∨ 400 < n))) ∨
    (tag = "w" ∧ (hasBadToken tok ∨ hasValue tok (fun v => v < 1 ∨ 7 < v))) ∨
    (tag = "m" ∧ (hasBadToken tok ∨ hasValue tok (fun v => v = 0 ∨ 31 < v ∨ v < -2) ∨
      ∃ tok2 rest2, rest = tok2 :: rest2 ∧ hasBadToken tok2))

/-- A task with the given `Date` and `Repeat`, for the examples. -/
def sampleTask (date rule : String) : db.Task :=
  { ID := "7", Date := date, Title := "Pay the rent", Comment := "by transfer", Repeat := rule }

/-- A day-by-day scan from `date` that stops at the first instant satisfying `stop`: the
common shape of the loops of `handleWeekly` and `handleMonthly`. -/
def scan (stop : Time → Bool) : Nat → Time → Option Time
  | 0, _ => none
  | fuel + 1, date => if stop date then some date else scan stop fuel (date.AddDate 0 0 1)

end api

namespace GoTime

/-! ## The calendar -/

theorem isLeap_iff (y : Int) :
    isLeap y = true ↔ y % 4 = 0 ∧ (y % 100 ≠ 0 ∨ y % 400 = 0) := by
  simp [isLeap]

theorem absYear_spec (d : Int) :
    daysSinceEpoch (absYear d).1 + (absYear d).2 = d ∧ 0 ≤ (absYear d).2 ∧
      (absYear d).2 < yearLen (absYear d).1 := by
  simp only [absYear, daysSinceEpoch, yearLen, isLeap_iff]
  generalize hc : (d + 719162) % 146097 / 36524 = c
  have hc5 : c = 0 ∨ c = 1 ∨ c = 2 ∨ c = 3 ∨ c = 4 := by omega
  generalize hn : c - c / 4 = n100
  generalize hg : ((d + 719162) % 146097 - 36524 * n100) % 1461 / 365 = g
  have hg5 : g = 0 ∨ g = 1 ∨ g = 2 ∨ g = 3 ∨ g = 4 := by omega
  generalize hn1 : g - g / 4 = n1
  rcases hc5 with h | h | h | h | h <;> rcases hg5 with h' | h' | h' | h' | h' <;>
    subst h h' <;> simp at hn hn1 <;> subst hn hn1 <;>
    refine ⟨by omega, by omega, ?_⟩ <;> split <;> omega

theorem daysSinceEpoch_succ (y : Int) :
    daysSinceEpoch (y + 1) = daysSinceEpoch y + yearLen y := by
  simp only [daysSinceEpoch, yearLen, isLeap_iff]
  split <;> omega

theorem yearLen_pos (y : Int) : 365 ≤ yearLen y := by
  unfold yearLen; split <;> omega

theorem daysSinceEpoch_add (y : Int) (k : Nat) :
    daysSinceEpoch y + 365 * k ≤ daysSinceEpoch (y + k) := by
  induction k with
  | zero => simp
  | succ k ih =>
    have h := daysSinceEpoch_succ (y + k)
    have h2 := yearLen_pos (y + k)
    have e : y + ((k + 1 : Nat) : Int) = y + k + 1 := by push_cast; ring
    rw [e, h]; push_cast; omega

theorem daysSinceEpoch_lt {y y' : Int} (h : y < y') :
    daysSinceEpoch y + yearLen y ≤ daysSinceEpoch y' := by
  obtain ⟨k, hk⟩ : ∃ k : Nat, y' = y + 1 + k := ⟨(y' - (y + 1)).toNat, by omega⟩
  have := daysSinceEpoch_add (y + 1) k
  rw [daysSinceEpoch_succ] at this
  rw [hk]; omega

theorem year_unique {y y' yd yd' : Int} (h : daysSinceEpoch y + yd = daysSinceEpoch y' + yd')
    (h0 : 0 ≤ yd) (h1 : yd < yearLen y) (h0' : 0 ≤ yd') (h1' : yd' < yearLen y') :
    y = y' ∧ yd = yd' := by
  have hy : y = y' := by
    rcases lt_trichotomy y y' with hlt | heq | hgt
    · have := daysSinceEpoch_lt hlt; omega
    · exact heq
    · have := daysSinceEpoch_lt hgt; omega
  subst hy
  exact ⟨rfl, by omega⟩

theorem absYear_eq {d y yd : Int} (h : daysSinceEpoch y + yd = d) (h0 : 0 ≤ yd)
    (h1 : yd < yearLen y) : absYear d = (y, yd) := by
  obtain ⟨a, b, c⟩ := absYear_spec d
  have := year_unique (a.trans h.symm) b c h0 h1
  exact Prod.ext this.1 this.2


theorem ydayOk_all : ∀ n : Nat, n < 365 → YdayOk false n ∧ YdayOk true n := by
  decide!

theorem ydayOk_last : YdayOk true 365 := by decide!

theorem monthDayOk_all :
    ∀ m : Nat, m < 12 → ∀ d : Nat, d < 31 →
      MonthDayOk false (m + 1) (d + 1) ∧ MonthDayOk true (m + 1) (d + 1) := by
  decide!

theorem month_cases {m : Int} (h1 : 1 ≤ m) (h2 : m ≤ 12) :
    m = 1 ∨ m = 2 ∨ m = 3 ∨ m = 4 ∨ m = 5 ∨ m = 6 ∨ m = 7 ∨ m = 8 ∨ m = 9 ∨ m = 10 ∨
      m = 11 ∨ m = 12 := by omega

theorem daysBefore_low {m : Int} (h : m ≤ 1) : daysBefore m = 0 := by
  rw [daysBefore, if_pos h]

theorem daysBefore_high {m : Int} (h : 13 ≤ m) : daysBefore m = 365 := by
  rw [daysBefore]
  repeat rw [if_neg (by omega)]

theorem ydayInYear_all :
    ∀ m : Nat, m < 12 → ∀ d : Nat, d < 31 →
      YdayInYear false (m + 1) (d + 1) ∧ YdayInYear true (m + 1) (d + 1) := by
  decide!

theorem monthLen_le (leap : Bool) (m : Int) : monthLen leap m ≤ 31 := by
  unfold monthLen
  split
  · omega
  · by_cases h1 : 1 ≤ m
    · by_cases h2 : m ≤ 12
      · rcases month_cases h1 h2 with h | h | h | h | h | h | h | h | h | h | h | h <;>
          subst h <;> decide
      · rw [daysBefore_high (by omega), daysBefore_high (by omega)]; omega
    · rw [daysBefore_low (by omega), daysBefore_low (by omega)]; omega

theorem ydayToMonthDay_spec (leap : Bool) (yd : Int) (h0 : 0 ≤ yd)
    (h1 : yd < if leap = true then 366 else 365) : YdayOk leap yd := by
  obtain ⟨n, rfl⟩ : ∃ n : Nat, yd = n := ⟨yd.toNat, by omega⟩
  by_cases hn : n < 365
  · cases leap
    · exact (ydayOk_all n hn).1
    · exact (ydayOk_all n hn).2
  · cases leap
    · simp at h1; omega
    · simp at h1
      have : n = 365 := by omega
      subst this; exact ydayOk_last

theorem ydayToMonthDay_ydayOf (leap : Bool) (m d : Int) (hm1 : 1 ≤ m) (hm2 : m ≤ 12)
    (hd1 : 1 ≤ d) (hd2 : d ≤ monthLen leap m) :
    ydayToMonthDay leap (ydayOf leap m d) = (m, d) ∧ 0 ≤ ydayOf leap m d ∧
      ydayOf leap m d < (if leap = true then 366 else 365) := by
  have hd3 := monthLen_le leap m
  obtain ⟨a, rfl⟩ : ∃ a : Nat, m = a + 1 := ⟨(m - 1).toNat, by omega⟩
  obtain ⟨b, rfl⟩ : ∃ b : Nat, d = b + 1 := ⟨(d - 1).toNat, by omega⟩
  have key := monthDayOk_all a (by omega) b (by omega)
  have key2 := ydayInYear_all a (by omega) b (by omega)
  cases leap
  · have := key2.1 hd2
    exact ⟨key.1 hd2, this.1, by simpa using this.2⟩
  · have := key2.2 hd2
    exact ⟨key.2 hd2, this.1, by simpa using this.2⟩

theorem monthLen_isLeap (y m : Int) : monthLen (isLeap y) m = daysIn m y := rfl

theorem yearLen_eq (y : Int) : yearLen y = if isLeap y = true then 366 else 365 := rfl

theorem dateToDays_month {y m : Int} (d : Int) (hm1 : 1 ≤ m) (hm2 : m ≤ 12) :
    dateToDays y m d = daysSinceEpoch y + ydayOf (isLeap y) m d := by
  have e1 : (m - 1) / 12 = 0 := by omega
  have e2 : (m - 1) % 12 + 1 = m := by omega
  simp only [dateToDays, ydayOf, e1, e2, add_zero]
  ring

theorem dateToDays_add_day (y m d k : Int) :
    dateToDays y m (d + k) = dateToDays y m d + k := by
  simp only [dateToDays]; ring

/-- The calendar fields of an instant are a valid date, and `Date` maps them back to the
day of the instant. -/
theorem Time.civil_spec (t : Time) :
    1 ≤ t.Month ∧ t.Month ≤ 12 ∧ 1 ≤ t.Day ∧ t.Day ≤ daysIn t.Month t.Year ∧
      dateToDays t.Year t.Month t.Day = t.absDay := by
  obtain ⟨a, b, c⟩ := absYear_spec t.absDay
  obtain ⟨k1, k2, k3, k4, k5⟩ := ydayToMonthDay_spec (isLeap t.Year) (absYear t.absDay).2 b c
  have k1 : 1 ≤ t.Month := k1
  have k2 : t.Month ≤ 12 := k2
  have k5 : ydayOf (isLeap t.Year) t.Month t.Day = (absYear t.absDay).2 := k5
  refine ⟨k1, k2, k3, k4, ?_⟩
  rw [dateToDays_month _ k1 k2, k5]; exact a

/-- An instant on the day of a valid date `y`-`m`-`d` has these calendar fields. -/
theorem Time.civil_eq {t : Time} {y m d : Int} (hm1 : 1 ≤ m) (hm2 : m ≤ 12) (hd1 : 1 ≤ d)
    (hd2 : d ≤ daysIn m y) (h : t.absDay = dateToDays y m d) :
    t.Year = y ∧ t.Month = m ∧ t.Day = d := by
  obtain ⟨e, b0, b1⟩ := ydayToMonthDay_ydayOf (isLeap y) m d hm1 hm2 hd1 hd2
  rw [dateToDays_month _ hm1 hm2] at h
  have hy := absYear_eq h.symm b0 b1
  have hY : t.Year = y := by unfold Time.Year; rw [hy]
  refine ⟨hY, ?_, ?_⟩
  · unfold Time.Month; rw [hY, hy]; simp only [e]
  · unfold Time.Day; rw [hY, hy]; simp only [e]

theorem nsPerDay_pos : 0 < nsPerDay := by decide

theorem Time.ns_split (t : Time) : t.absDay * nsPerDay + t.ns % nsPerDay = t.ns := by
  unfold Time.absDay nsPerDay; omega

theorem Time.AddDate_days_ns (t : Time) (k : Int) :
    (t.AddDate 0 0 k).ns = t.ns + k * nsPerDay := by
  obtain ⟨_, _, _, _, h⟩ := t.civil_spec
  have h2 := t.ns_split
  simp only [Time.AddDate, add_zero, dateToDays_add_day, h]
  rw [add_mul]; omega

theorem Time.AddDate_days_absDay (t : Time) (k : Int) :
    (t.AddDate 0 0 k).absDay = t.absDay + k := by
  unfold Time.absDay
  rw [Time.AddDate_days_ns]
  unfold nsPerDay; omega

theorem Time.AddDate_days_weekday (t : Time) (k : Int) :
    (t.AddDate 0 0 k).Weekday = (t.Weekday + k) % 7 := by
  unfold Time.Weekday
  rw [Time.AddDate_days_absDay]; omega

theorem Time.Weekday_range (t : Time) : 0 ≤ t.Weekday ∧ t.Weekday < 7 := by
  unfold Time.Weekday; omega

theorem Time.after_iff (t u : Time) : t.After u = true ↔ u.ns < t.ns := by
  simp [Time.After]

/-! ## `Format` determines the day -/

theorem digitChar_val : ∀ k : Nat, k < 10 →
    (Nat.digitChar k).toNat - 48 = k ∧ Nat.digitChar k ≠ '-' := by
  decide

theorem toDigitsCore_append (fuel n : Nat) (ds : List Char) :
    Nat.toDigitsCore 10 fuel n ds = Nat.toDigitsCore 10 fuel n [] ++ ds := by
  induction fuel generalizing n ds with
  | zero => simp [Nat.toDigitsCore]
  | succ f ih =>
    simp only [Nat.toDigitsCore]
    split
    · simp
    · rw [ih (n / 10) (Nat.digitChar (n % 10) :: ds), ih (n / 10) [Nat.digitChar (n % 10)]]
      simp

theorem digitsNat_append (l : List Char) (c : Char) :
    digitsNat (l ++ [c]) = digitsNat l * 10 + (c.toNat - 48) := by
  simp [digitsNat, List.foldl_append]

theorem toDigitsCore_spec (fuel n : Nat) (h : n < fuel) :
    digitsNat (Nat.toDigitsCore 10 fuel n []) = n ∧
      ∀ c ∈ Nat.toDigitsCore 10 fuel n [], c ≠ '-' := by
  induction fuel generalizing n with
  | zero => omega
  | succ f ih =>
    have hd := digitChar_val (n % 10) (Nat.mod_lt _ (by decide))
    simp only [Nat.toDigitsCore]
    split
    · rename_i h0
      refine ⟨?_, ?_⟩
      · simp only [digitsNat, List.foldl_cons, List.foldl_nil]
        omega
      · intro c hc
        simp only [List.mem_singleton] at hc
        rw [hc]; exact hd.2
    · rename_i h0
      rw [toDigitsCore_append]
      obtain ⟨e, hall⟩ := ih (n / 10) (by omega)
      refine ⟨?_, ?_⟩
      · rw [digitsNat_append, e]; omega
      · intro c hc
        rcases List.mem_append.1 hc with hc | hc
        · exact hall c hc
        · simp only [List.mem_singleton] at hc
          rw [hc]; exact hd.2

theorem digitsNat_pad (k : Nat) (l : List Char) :
    digitsNat (List.replicate k '0' ++ l) = digitsNat l := by
  induction k with
  | zero => simp
  | succ k ih =>
    simp only [List.replicate_succ, List.cons_append]
    unfold digitsNat at ih ⊢
    simpa using ih

/-- Reading back what `appendInt` wrote gives the number. -/
theorem readInt_appendInt (x : Int) (width : Nat) : readInt (appendInt x width) = x := by
  obtain ⟨e, hall⟩ := toDigitsCore_spec (x.natAbs + 1) x.natAbs (by omega)
  unfold appendInt
  simp only [Nat.toDigits]
  by_cases hx : x < 0
  · rw [if_pos hx]
    simp only [List.singleton_append, readInt]
    rw [digitsNat_pad, e]; omega
  · rw [if_neg hx]
    simp only [List.nil_append]
    have hread : ∀ l : List Char, (∀ c ∈ l, c ≠ '-') → readInt l = (digitsNat l : Int) := by
      intro l hl
      cases l with
      | nil => rfl
      | cons c cs =>
        have hc := hl c (by simp)
        unfold readInt
        split
        · rename_i heq; injection heq with h1 _; exact absurd h1 hc
        · rfl
    rw [hread, digitsNat_pad, e]
    · omega
    · intro c hc
      rcases List.mem_append.1 hc with hc | hc
      · rw [(List.mem_replicate.1 hc).2]; decide
      · exact hall c hc

theorem appendInt_two_length : ∀ k : Nat, k < 32 → (appendInt (k : Int) 2).length = 2 := by
  decide!

/-- Two instants with the same formatted date lie on the same day. -/
theorem Format_absDay {t u : Time} (h : t.Format = u.Format) : t.absDay = u.absDay := by
  obtain ⟨a1, a2, a3, a4, a5⟩ := t.civil_spec
  obtain ⟨b1, b2, b3, b4, b5⟩ := u.civil_spec
  have len2 : ∀ x : Int, 0 ≤ x → x < 32 → (appendInt x 2).length = 2 := by
    intro x h0 h1
    obtain ⟨k, rfl⟩ : ∃ k : Nat, x = k := ⟨x.toNat, by omega⟩
    exact appendInt_two_length k (by omega)
  have hm31 := monthLen_le (isLeap t.Year) t.Month
  have hu31 := monthLen_le (isLeap u.Year) u.Month
  rw [monthLen_isLeap] at hm31 hu31
  have h := congrArg String.data h
  simp only [Time.Format] at h
  have hlen : (appendInt t.Month 2 ++ appendInt t.Day 2).length
      = (appendInt u.Month 2 ++ appendInt u.Day 2).length := by
    simp only [List.length_append]
    rw [len2 _ (by omega) (by omega), len2 _ (by omega) (by omega),
      len2 _ (by omega) (by omega), len2 _ (by omega) (by omega)]
  obtain ⟨hy, hmd⟩ := List.append_inj' h hlen
  obtain ⟨hm, hd⟩ := List.append_inj hmd
    (by rw [len2 _ (by omega) (by omega), len2 _ (by omega) (by omega)])
  have ey : t.Year = u.Year := by
    rw [← readInt_appendInt t.Year 4, hy, readInt_appendInt]
  have em : t.Month = u.Month := by
    rw [← readInt_appendInt t.Month 2, hm, readInt_appendInt]
  have ed : t.Day = u.Day := by
    rw [← readInt_appendInt t.Day 2, hd, readInt_appendInt]
  rw [← a5, ← b5, ey, em, ed]

/-- Among the instants at midnight, the formatted date determines the instant. -/
theorem Format_injective {t u : Time} (ht : t.ns % nsPerDay = 0) (hu : u.ns % nsPerDay = 0)
    (h : t.Format = u.Format) : t = u := by
  have hd := Format_absDay h
  have h1 := t.ns_split
  have h2 := u.ns_split
  cases t; cases u
  simp only [Time.mk.injEq]
  simp only at ht hu h1 h2
  rw [← h1, ← h2, hd, ht, hu]

end GoTime

namespace api

open GoTime

/-! ## Loops -/

theorem Time.eq_of_ns {t u : Time} (h : t.ns = u.ns) : t = u := by
  cases t; cases u; simp_all

theorem addDate_days (t : Time) (k : Int) : t.AddDate 0 0 k = shift t k :=
  Time.eq_of_ns (Time.AddDate_days_ns t k)

theorem shift_zero (t : Time) : shift t 0 = t := Time.eq_of_ns (by simp [shift])

theorem shift_shift (t : Time) (a b : Int) : shift (shift t a) b = shift t (a + b) :=
  Time.eq_of_ns (by simp only [shift]; ring)

theorem shift_absDay (t : Time) (k : Int) : (shift t k).absDay = t.absDay + k := by
  rw [← addDate_days, Time.AddDate_days_absDay]

theorem shift_weekday (t : Time) (k : Int) : (shift t k).Weekday = (t.Weekday + k) % 7 := by
  rw [← addDate_days, Time.AddDate_days_weekday]

theorem shift_tod (t : Time) (k : Int) : (shift t k).ns % nsPerDay = t.ns % nsPerDay := by
  simp [shift, Int.add_mul_emod_self]

theorem addDate_tod (t : Time) (y m d : Int) :
    (t.AddDate y m d).ns % nsPerDay = t.ns % nsPerDay := by
  simp only [Time.AddDate]
  rw [Int.add_comm, Int.add_mul_emod_self]
  exact Int.emod_emod_of_dvd _ (dvd_refl _)

theorem handleWeekly_loop_eq (now : Time) (weekdays : List Int) (fuel : Nat) (date : Time) :
    handleWeekly.loop now weekdays fuel date
      = scan (fun d => d.After now && contains weekdays d.Weekday) fuel date := by
  induction fuel generalizing date with
  | zero => rfl
  | succ n ih => simp only [handleWeekly.loop, scan, ih]

theorem handleMonthly_loop_eq (now : Time) (days months : List Int) (fuel : Nat)
    (date : Time) :
    handleMonthly.loop now days months fuel date
      = scan (fun d => d.After now && isValidMonthDay d days months) fuel date := by
  induction fuel generalizing date with
  | zero => rfl
  | succ n ih => simp only [handleMonthly.loop, scan, ih]

/-- What a scan that returns has found: the first stopping day at or after `date`. -/
theorem scan_some {stop : Time → Bool} {fuel : Nat} {date r : Time}
    (h : scan stop fuel date = some r) :
    ∃ k : Nat, k < fuel ∧ r = shift date k ∧ stop r = true ∧
      ∀ j : Nat, j < k → stop (shift date j) = false := by
  induction fuel generalizing date with
  | zero => simp [scan] at h
  | succ n ih =>
    simp only [scan] at h
    by_cases hs : stop date = true
    · rw [if_pos hs] at h
      cases h
      exact ⟨0, by omega, by simp [shift_zero], hs, by intro j hj; omega⟩
    · rw [if_neg hs] at h
      obtain ⟨k, hk, hr, hst, hfirst⟩ := ih h
      refine ⟨k + 1, by omega, ?_, hst, ?_⟩
      · rw [hr, addDate_days, shift_shift]; congr 1; push_cast; ring
      · intro j hj
        cases j with
        | zero => simpa [shift_zero] using hs
        | succ j =>
          have := hfirst j (by omega)
          rw [addDate_days, shift_shift] at this
          rw [← this]; congr 2; push_cast; ring

/-- A scan with enough fuel returns the first stopping day. -/
theorem scan_first {stop : Time → Bool} (date : Time) {k : Nat}
    (hk : stop (shift date k) = true) (hfirst : ∀ j : Nat, j < k → stop (shift date j) = false)
    {fuel : Nat} (hfuel : k < fuel) : scan stop fuel date = some (shift date k) := by
  induction k generalizing date fuel with
  | zero =>
    obtain ⟨n, rfl⟩ : ∃ n, fuel = n + 1 := ⟨fuel - 1, by omega⟩
    simp only [Nat.cast_zero, shift_zero] at hk
    simp [scan, hk, shift_zero]
  | succ k ih =>
    obtain ⟨n, rfl⟩ : ∃ n, fuel = n + 1 := ⟨fuel - 1, by omega⟩
    have h0 := hfirst 0 (by omega)
    simp only [Nat.cast_zero, shift_zero] at h0
    simp only [scan, h0, Bool.false_eq_true, if_false]
    have e : ∀ j : Nat, shift (date.AddDate 0 0 1) j = shift date ((j + 1 : Nat) : Int) := by
      intro j; rw [addDate_days, shift_shift]; congr 1; push_cast; ring
    rw [ih (date.AddDate 0 0 1) (by rw [e]; exact hk)
      (by intro j hj; rw [e]; exact hfirst (j + 1) (by omega)) (by omega), e]

/-- A scan over days none of which stops never returns. -/
theorem scan_none {stop : Time → Bool} {date : Time} (fuel : Nat)
    (h : ∀ j : Nat, stop (shift date j) = false) : scan stop fuel date = none := by
  induction fuel generalizing date with
  | zero => rfl
  | succ n ih =>
    have h0 := h 0
    simp only [Nat.cast_zero, shift_zero] at h0
    simp only [scan, h0, Bool.false_eq_true, if_false]
    apply ih
    intro j
    rw [addDate_days, shift_shift]
    have := h (j + 1)
    rw [← this]; congr 2; push_cast; ring

/-- If some day at or after `date` stops the scan, the scan returns, at the first of them. -/
theorem scan_exists (stop : Time → Bool) (date : Time) {K : Nat}
    (hK : stop (shift date K) = true) :
    ∃ k : Nat, k ≤ K ∧ stop (shift date k) = true ∧
      (∀ j : Nat, j < k → stop (shift date j) = false) ∧
      ∀ fuel : Nat, k < fuel → scan stop fuel date = some (shift date k) := by
  classical
  have hex : ∃ k : Nat, stop (shift date k) = true := ⟨K, hK⟩
  refine ⟨Nat.find hex, Nat.find_min' hex hK, Nat.find_spec hex, ?_, ?_⟩
  · intro j hj
    simpa using Nat.find_min hex hj
  · intro fuel hfuel
    exact scan_first date (Nat.find_spec hex) (by intro j hj; simpa using Nat.find_min hex hj) hfuel

end api

namespace api

open GoTime

/-! ## `calculateNextDate` and the results of the handlers -/

/-- What `calculateNextDate` returns: the first iterate of `nextFunc`, counting from the
first application, that is after `now`. -/
theorem calculateNextDate_some {fuel : Nat} {now date r : Time} {f : Time → Time}
    (h : calculateNextDate fuel now date f = some r) :
    ∃ k : Nat, 0 < k ∧ k ≤ fuel ∧ r = f^[k] date ∧ r.After now = true ∧
      ∀ j : Nat, 0 < j → j < k → (f^[j] date).After now = false := by
  induction fuel generalizing date with
  | zero => simp [calculateNextDate] at h
  | succ n ih =>
    simp only [calculateNextDate] at h
    by_cases hs : (f date).After now = true
    · rw [if_pos hs] at h
      cases h
      exact ⟨1, by omega, by omega, rfl, hs, by intro j h1 h2; omega⟩
    · rw [if_neg hs] at h
      obtain ⟨k, hk0, hk, hr, ha, hfirst⟩ := ih h
      refine ⟨k + 1, by omega, by omega, by rw [hr, Function.iterate_succ_apply], ha, ?_⟩
      intro j hj0 hj
      obtain ⟨i, rfl⟩ : ∃ i, j = i + 1 := ⟨j - 1, by omega⟩
      rw [Function.iterate_succ_apply]
      cases i with
      | zero => simpa using hs
      | succ i => exact hfirst (i + 1) (by omega) (by omega)

/-- With enough fuel `calculateNextDate` returns the first iterate after `now`. -/
theorem calculateNextDate_first {now date : Time} {f : Time → Time} {k : Nat} (hk0 : 0 < k)
    (hk : (f^[k] date).After now = true)
    (hfirst : ∀ j : Nat, 0 < j → j < k → (f^[j] date).After now = false)
    {fuel : Nat} (hfuel : k ≤ fuel) : calculateNextDate fuel now date f = some (f^[k] date) := by
  induction k generalizing date fuel with
  | zero => omega
  | succ k ih =>
    obtain ⟨n, rfl⟩ : ∃ n, fuel = n + 1 := ⟨fuel - 1, by omega⟩
    simp only [calculateNextDate]
    cases k with
    | zero =>
      have : (f date).After now = true := by simpa using hk
      rw [if_pos this]; rfl
    | succ k =>
      have h1 := hfirst 1 (by omega) (by omega)
      simp only [Function.iterate_succ, Function.iterate_zero, Function.comp_apply, id] at h1
      rw [if_neg (by simp [h1])]
      rw [Function.iterate_succ_apply]
      apply ih (by omega)
      · rw [← Function.iterate_succ_apply]; exact hk
      · intro j hj0 hj
        rw [← Function.iterate_succ_apply]
        exact hfirst (j + 1) (by omega) (by omega)
      · omega

/-- An invariant of `nextFunc` that holds of `date` holds of the result. -/
theorem calculateNextDate_inv {fuel : Nat} {now date r : Time} {f : Time → Time}
    (P : Time → Prop) (hf : ∀ t, P t → P (f t)) (h0 : P date)
    (h : calculateNextDate fuel now date f = some r) : P r := by
  obtain ⟨k, _, _, hr, _, _⟩ := calculateNextDate_some h
  have hall : ∀ (n : Nat) (t : Time), P t → P (f^[n] t) := by
    intro n
    induction n with
    | zero => intro t ht; exact ht
    | succ n ih => intro t ht; rw [Function.iterate_succ_apply]; exact ih _ (hf _ ht)
  rw [hr]; exact hall k date h0

theorem Parse_midnight {value : String} {date : Time} (h : Parse value = .ok date) :
    date.ns % nsPerDay = 0 := by
  unfold Parse at h
  split at h
  · split at h
    · simp only at h
      split at h
      · cases h
      · split at h
        · cases h
        · cases h
          simp [Date]
    · cases h
  · cases h

/-- A date returned by `handleDaily` is after `now`, at the time of day of `date`. -/
theorem handleDaily_ok {fuel : Nat} {now date : Time} {repParts : List String} {s : String}
    (h : handleDaily fuel now date repParts = some (.ok s)) :
    ∃ r : Time, s = r.Format ∧ r.ns % nsPerDay = date.ns % nsPerDay ∧ r.After now = true := by
  unfold handleDaily at h
  split at h
  · split at h
    · cases h
    · split at h
      · cases h
      · split at h
        · cases h
        · split at h
          · cases h
          · rename_i r hr
            cases h
            obtain ⟨k, _, _, _, ha, _⟩ := calculateNextDate_some hr
            exact ⟨r, rfl, calculateNextDate_inv (fun t => t.ns % nsPerDay = date.ns % nsPerDay)
              (fun t ht => by show _ = _; rw [addDate_tod]; exact ht) rfl hr, ha⟩
  · cases h

theorem handleYearly_ok {fuel : Nat} {now date : Time} {s : String}
    (h : handleYearly fuel now date = some (.ok s)) :
    ∃ r : Time, s = r.Format ∧ r.ns % nsPerDay = date.ns % nsPerDay ∧ r.After now = true := by
  unfold handleYearly at h
  split at h
  · cases h
  · rename_i r hr
    cases h
    obtain ⟨k, _, _, _, ha, _⟩ := calculateNextDate_some hr
    exact ⟨r, rfl, calculateNextDate_inv (fun t => t.ns % nsPerDay = date.ns % nsPerDay)
      (fun t ht => by show _ = _; rw [addDate_tod]; exact ht) rfl hr, ha⟩

theorem handleWeekly_ok {fuel : Nat} {now date : Time} {repParts : List String} {s : String}
    (h : handleWeekly fuel now date repParts = some (.ok s)) :
    ∃ r : Time, s = r.Format ∧ r.ns % nsPerDay = date.ns % nsPerDay ∧ r.After now = true := by
  unfold handleWeekly at h
  split at h
  · split at h
    · cases h
    · split at h
      · cases h
      · rename_i r hr
        cases h
        rw [handleWeekly_loop_eq] at hr
        obtain ⟨k, _, hk, hst, _⟩ := scan_some hr
        simp only [Bool.and_eq_true] at hst
        exact ⟨r, rfl, by rw [hk, shift_tod], hst.1⟩
  · cases h

theorem handleMonthly_ok {fuel : Nat} {now date : Time} {repParts : List String} {s : String}
    (h : handleMonthly fuel now date repParts = some (.ok s)) :
    ∃ r : Time, s = r.Format ∧ r.ns % nsPerDay = date.ns % nsPerDay ∧ r.After now = true := by
  unfold handleMonthly at h
  split at h
  · split at h
    · cases h
    · split at h
      · cases h
      · split at h
        · cases h
        · split at h
          · cases h
          · rename_i r hr
            cases h
            rw [handleMonthly_loop_eq] at hr
            obtain ⟨k, _, hk, hst, _⟩ := scan_some hr
            simp only [Bool.and_eq_true] at hst
            exact ⟨r, rfl, by rw [hk, shift_tod], hst.1⟩
  · cases h

/-! ## The result is after `now` -/

/-- C1.  Whenever `NextDate` returns a date, for any reference instant `now`, any start
date string and any rule string, the returned string is the formatted day `r` (an instant at
midnight UTC) that is strictly after `now`: `r` is not `now` and is not before `now`, and no
other day has that formatted string. -/
theorem NextDate_after_now (fuel : Nat) (now : Time) (dateStr rule s : String)
    (h : NextDate fuel now dateStr rule = some (.ok s)) :
    ∃ r : Time, s = r.Format ∧ r.ns % nsPerDay = 0 ∧ r.After now = true ∧ r ≠ now ∧
      r.Before now = false ∧ ∀ u : Time, u.ns % nsPerDay = 0 → u.Format = s → u = r := by
  have key : ∃ r : Time, s = r.Format ∧ r.ns % nsPerDay = 0 ∧ r.After now = true := by
    unfold NextDate at h
    split at h
    · cases h
    · split at h
      · cases h
      · rename_i date hdate
        have hmid := Parse_midnight hdate
        split at h
        · cases h
        · split at h
          · obtain ⟨r, a, b, c⟩ := handleDaily_ok h; exact ⟨r, a, by rw [b, hmid], c⟩
          · split at h
            · obtain ⟨r, a, b, c⟩ := handleYearly_ok h; exact ⟨r, a, by rw [b, hmid], c⟩
            · split at h
              · obtain ⟨r, a, b, c⟩ := handleWeekly_ok h; exact ⟨r, a, by rw [b, hmid], c⟩
              · split at h
                · obtain ⟨r, a, b, c⟩ := handleMonthly_ok h
                  exact ⟨r, a, by rw [b, hmid], c⟩
                · cases h
  obtain ⟨r, a, b, c⟩ := key
  have hlt : now.ns < r.ns := (Time.after_iff r now).1 c
  refine ⟨r, a, b, c, ?_, ?_, ?_⟩
  · intro e; rw [e] at hlt; omega
  · simp only [Time.Before, decide_eq_false_iff_not]; omega
  · intro u hu hf
    exact Format_injective hu b (hf.trans a)

/-- C1 at `now` = 2024-01-15, start date 2024-01-10, rule `d 3`. -/
theorem NextDate_after_now_witness :
    ∃ r : Time, "20240116" = r.Format ∧ r.ns % nsPerDay = 0 ∧
      r.After (Date 2024 1 15 0 0 0 0) = true ∧ r ≠ Date 2024 1 15 0 0 0 0 ∧
      r.Before (Date 2024 1 15 0 0 0 0) = false ∧
      ∀ u : Time, u.ns % nsPerDay = 0 → u.Format = "20240116" → u = r :=
  NextDate_after_now 2 (Date 2024 1 15 0 0 0 0) "20240110" "d 3" "20240116" (by rfl)

end api

namespace api

open GoTime

/-- If some positive iterate is after `now`, `calculateNextDate` returns, with the least
such iterate. -/
theorem calculateNextDate_exists {now date : Time} {f : Time → Time} {K : Nat} (hK0 : 0 < K)
    (hK : (f^[K] date).After now = true) :
    ∃ k : Nat, 0 < k ∧ k ≤ K ∧ (f^[k] date).After now = true ∧
      (∀ j : Nat, 0 < j → j < k → (f^[j] date).After now = false) ∧
      ∀ fuel : Nat, k ≤ fuel → calculateNextDate fuel now date f = some (f^[k] date) := by
  classical
  have hex : ∃ k : Nat, 0 < k ∧ (f^[k] date).After now = true := ⟨K, hK0, hK⟩
  have hfirst : ∀ j : Nat, 0 < j → j < Nat.find hex → (f^[j] date).After now = false := by
    intro j hj0 hj
    have := Nat.find_min hex hj
    simpa [hj0] using this
  exact ⟨Nat.find hex, (Nat.find_spec hex).1, Nat.find_min' hex ⟨hK0, hK⟩, (Nat.find_spec hex).2,
    hfirst, fun fuel hfuel =>
      calculateNextDate_first (Nat.find_spec hex).1 (Nat.find_spec hex).2 hfirst hfuel⟩

theorem iterate_addDate_days (date : Time) (n : Int) (k : Nat) :
    (fun d : Time => d.AddDate 0 0 n)^[k] date = date.AddDate 0 0 (k * n) := by
  induction k generalizing date with
  | zero => simp [addDate_days, shift_zero]
  | succ k ih =>
    rw [Function.iterate_succ_apply, ih]
    simp only [addDate_days, shift_shift]
    congr 1; push_cast; ring

theorem Split_empty (sep : Char) : Split "" sep = [""] := rfl

/-- `NextDate` on a start date that parses and a rule that is not empty: the dispatch on
the first part of the rule. -/
theorem NextDate_dispatch {dateStr rule tag : String} {params : List String} {date : Time}
    (fuel : Nat) (now : Time) (hrule0 : rule ≠ "") (hdate : Parse dateStr = .ok date)
    (hrule : Split rule ' ' = tag :: params) :
    NextDate fuel now dateStr rule =
      if tag = "d" then handleDaily fuel now date (tag :: params)
      else if tag = "y" then handleYearly fuel now date
      else if tag = "w" then handleWeekly fuel now date (tag :: params)
      else if tag = "m" then handleMonthly fuel now date (tag :: params)
      else some (.error .ErrInvalidTags) := by
  unfold NextDate
  rw [if_neg hrule0, hdate, hrule]

theorem rule_ne_empty {rule tag : String} {params : List String}
    (hrule : Split rule ' ' = tag :: params) (htag : tag ≠ "") : rule ≠ "" := by
  intro e
  rw [e, Split_empty] at hrule
  injection hrule with h1 _
  exact htag h1.symm

/-- C2.  For every `now`, every start date that parses and every daily rule `d n` with
`1 ≤ n ≤ 400` (the rule splits at spaces into `d`, a token that `Atoi` reads as `n`, and
possibly more parts), `NextDate` returns, given enough fuel, the start date plus `k * n` days
for the smallest `k > 0` for which that day is after `now`. -/
theorem NextDate_daily (now : Time) (dateStr rule tok : String) (rest : List String)
    (date : Time) (n : Int) (hdate : Parse dateStr = .ok date)
    (hrule : Split rule ' ' = "d" :: tok :: rest) (hn : Atoi tok = .ok n) (h1 : 1 ≤ n)
    (h400 : n ≤ 400) :
    ∃ k : Nat, 0 < k ∧ (date.AddDate 0 0 (k * n)).After now = true ∧
      (∀ j : Nat, 0 < j → j < k → (date.AddDate 0 0 (j * n)).After now = false) ∧
      ∀ fuel : Nat, k ≤ fuel →
        NextDate fuel now dateStr rule = some (.ok (date.AddDate 0 0 (k * n)).Format) := by
  have hK : ((fun d : Time => d.AddDate 0 0 n)^[(now.ns - date.ns).toNat + 1] date).After now
      = true := by
    rw [iterate_addDate_days, Time.after_iff, Time.AddDate_days_ns]
    have hnp : 1 ≤ n * nsPerDay := by
      have hp : 1 ≤ nsPerDay := by decide
      nlinarith
    have h2 : now.ns - date.ns < (((now.ns - date.ns).toNat + 1 : Nat) : Int) := by
      push_cast; omega
    have h3 : (((now.ns - date.ns).toNat + 1 : Nat) : Int)
        ≤ (((now.ns - date.ns).toNat + 1 : Nat) : Int) * (n * nsPerDay) :=
      le_mul_of_one_le_right (by omega) hnp
    rw [mul_assoc]; omega
  obtain ⟨k, hk0, _, hk, hfirst, hfuel⟩ := calculateNextDate_exists (by omega) hK
  refine ⟨k, hk0, by rw [← iterate_addDate_days]; exact hk, ?_, ?_⟩
  · intro j hj0 hj; rw [← iterate_addDate_days]; exact hfirst j hj0 hj
  · intro fuel hf
    rw [NextDate_dispatch fuel now (rule_ne_empty hrule (by decide)) hdate hrule, if_pos rfl]
    simp only [handleDaily, hn, maxDailyDays]
    rw [if_neg (by omega), if_neg (by omega), hfuel fuel hf, iterate_addDate_days]

/-- C2 at `now` = 2024-01-15, start date 2024-01-10, rule `d 3`: the general statement, and
the result `20240116` that the code computes there. -/
theorem NextDate_daily_witness :
    (∃ k : Nat, 0 < k ∧
      ((Date 2024 1 10 0 0 0 0).AddDate 0 0 (k * 3)).After (Date 2024 1 15 0 0 0 0) = true ∧
      (∀ j : Nat, 0 < j → j < k →
        ((Date 2024 1 10 0 0 0 0).AddDate 0 0 (j * 3)).After (Date 2024 1 15 0 0 0 0) = false) ∧
      ∀ fuel : Nat, k ≤ fuel →
        NextDate fuel (Date 2024 1 15 0 0 0 0) "20240110" "d 3"
          = some (.ok ((Date 2024 1 10 0 0 0 0).AddDate 0 0 (k * 3)).Format)) ∧
    NextDate 2 (Date 2024 1 15 0 0 0 0) "20240110" "d 3" = some (.ok "20240116") :=
  ⟨NextDate_daily (Date 2024 1 15 0 0 0 0) "20240110" "d 3" "3" [] (Date 2024 1 10 0 0 0 0) 3
    (by rfl) (by rfl) (by rfl) (by decide) (by decide), by rfl⟩

end api

namespace api

open GoTime

theorem Date_absDay (y m d : Int) : (Date y m d 0 0 0 0).absDay = dateToDays y m d := by
  simp only [Time.absDay, Date, nsPerDay]; omega

theorem Date_ns (y m d : Int) : (Date y m d 0 0 0 0).ns = dateToDays y m d * nsPerDay := by
  simp [Date]

/-- The calendar fields of `Date y m d` for a valid date are `y`, `m`, `d`. -/
theorem Date_civil {y m d : Int} (hm1 : 1 ≤ m) (hm2 : m ≤ 12) (hd1 : 1 ≤ d)
    (hd2 : d ≤ daysIn m y) :
    (Date y m d 0 0 0 0).Year = y ∧ (Date y m d 0 0 0 0).Month = m ∧
      (Date y m d 0 0 0 0).Day = d :=
  Time.civil_eq hm1 hm2 hd1 hd2 (Date_absDay y m d)

theorem daysIn_feb (y : Int) : daysIn 2 y = if isLeap y = true then 29 else 28 := by
  unfold daysIn
  by_cases hl : isLeap y = true
  · simp [hl]
  · simp only [hl, and_false, if_false]; decide

theorem daysIn_other {m : Int} (h : m ≠ 2) (y y' : Int) : daysIn m y = daysIn m y' := by
  unfold daysIn
  rw [if_neg (by tauto), if_neg (by tauto)]

/-- The month and day kept by the yearly rule are a valid date in every year. -/
theorem yearlyMonthDay_valid (date : Time) (y : Int) :
    1 ≤ (yearlyMonthDay date).1 ∧ (yearlyMonthDay date).1 ≤ 12 ∧ 1 ≤ (yearlyMonthDay date).2 ∧
      (yearlyMonthDay date).2 ≤ daysIn (yearlyMonthDay date).1 y := by
  obtain ⟨a, b, c, d, _⟩ := date.civil_spec
  unfold yearlyMonthDay
  by_cases h : date.Month = 2 ∧ date.Day = 29
  · rw [if_pos h]
    refine ⟨by decide, by decide, by decide, ?_⟩
    show (1 : Int) ≤ daysIn 3 y
    unfold daysIn; rw [if_neg (by omega)]; decide
  · rw [if_neg h]
    refine ⟨a, b, c, ?_⟩
    show date.Day ≤ daysIn date.Month y
    by_cases h2 : date.Month = 2
    · rw [h2, daysIn_feb] at d ⊢
      have : date.Day ≠ 29 := fun e => h ⟨h2, e⟩
      split at d <;> split <;> omega
    · rw [daysIn_other h2 y date.Year]; exact d

theorem yearlyTarget_civil (date : Time) (k : Nat) :
    (yearlyTarget date k).Year = date.Year + k ∧
      (yearlyTarget date k).Month = (yearlyMonthDay date).1 ∧
      (yearlyTarget date k).Day = (yearlyMonthDay date).2 := by
  obtain ⟨a, b, c, d⟩ := yearlyMonthDay_valid date (date.Year + k)
  exact Date_civil a b c d

/-- One year added to the start date: the kept month and day of the next year. -/
theorem addYear_start {date : Time} (hmid : date.ns % nsPerDay = 0) :
    date.AddDate 1 0 0 = yearlyTarget date 1 := by
  apply Time.eq_of_ns
  simp only [Time.AddDate, yearlyTarget, Date_ns, hmid, add_zero, Nat.cast_one]
  congr 1
  obtain ⟨a, b, c, d, _⟩ := date.civil_spec
  unfold yearlyMonthDay
  by_cases h : date.Month = 2 ∧ date.Day = 29
  · rw [if_pos h, h.1, h.2]
    rw [h.1, h.2, daysIn_feb] at d
    have hl : isLeap date.Year = true := by
      by_contra hl; rw [if_neg hl] at d; omega
    have hl' : isLeap (date.Year + 1) = false := by
      rw [isLeap_iff] at hl
      rw [Bool.eq_false_iff, Ne, isLeap_iff]; omega
    rw [dateToDays_month _ (by decide) (by decide), dateToDays_month _ (by decide) (by decide),
      hl']
    rfl
  · rw [if_neg h]

/-- One year added to a kept day: the kept day of the next year. -/
theorem addYear_target (date : Time) (k : Nat) :
    (yearlyTarget date k).AddDate 1 0 0 = yearlyTarget date (k + 1) := by
  obtain ⟨e1, e2, e3⟩ := yearlyTarget_civil date k
  apply Time.eq_of_ns
  have hmid : (yearlyTarget date k).ns % nsPerDay = 0 := by
    rw [yearlyTarget, Date_ns]; simp
  simp only [Time.AddDate, hmid, add_zero, e1, e2, e3]
  rw [yearlyTarget, Date_ns]
  congr 2; push_cast; ring

theorem iterate_addYear {date : Time} (hmid : date.ns % nsPerDay = 0) (k : Nat) :
    (fun d : Time => d.AddDate 1 0 0)^[k + 1] date = yearlyTarget date (k + 1) := by
  induction k with
  | zero => simpa using addYear_start hmid
  | succ k ih =>
    rw [Function.iterate_succ_apply', ih]
    exact addYear_target date (k + 1)

theorem dateToDays_ge {y m d : Int} (hm1 : 1 ≤ m) (hm2 : m ≤ 12) (hd1 : 1 ≤ d)
    (hd2 : d ≤ daysIn m y) : daysSinceEpoch y ≤ dateToDays y m d := by
  obtain ⟨_, b0, _⟩ := ydayToMonthDay_ydayOf (isLeap y) m d hm1 hm2 hd1 hd2
  rw [dateToDays_month _ hm1 hm2]; omega

/-- Far enough in the future, the kept day is after `now`. -/
theorem yearlyTarget_after (now date : Time) :
    (yearlyTarget date
      ((now.ns - daysSinceEpoch date.Year * nsPerDay).toNat + 1)).After now = true := by
  generalize hK : (now.ns - daysSinceEpoch date.Year * nsPerDay).toNat + 1 = K
  obtain ⟨a, b, c, d⟩ := yearlyMonthDay_valid date (date.Year + K)
  have h1 := dateToDays_ge a b c d
  have h2 := daysSinceEpoch_add date.Year K
  rw [Time.after_iff, yearlyTarget, Date_ns]
  have hK' : now.ns - daysSinceEpoch date.Year * nsPerDay < (K : Int) := by
    rw [← hK]; push_cast; omega
  have h3 : (daysSinceEpoch date.Year + 365 * K) * nsPerDay
      ≤ dateToDays (date.Year + K) (yearlyMonthDay date).1 (yearlyMonthDay date).2 * nsPerDay :=
    mul_le_mul_of_nonneg_right (by omega) (by decide)
  have h4 : (K : Int) ≤ 365 * K * nsPerDay := by
    have : (1 : Int) ≤ nsPerDay := by decide
    have hK0 : (0 : Int) ≤ K := by positivity
    nlinarith
  rw [add_mul] at h3
  omega

end api

namespace api

open GoTime

/-- C3, as the code has it.  For every `now` and every start date that parses, `NextDate`
with a rule whose tag is `y` returns, given enough fuel, the day `k` years after the start
year for the smallest `k > 0` for which that day is after `now`; the day keeps the month and
day of the start date, except that a 29 February start is kept on 1 March in every later
year, leap years included.  For a start date other than 29 February these days are the
anniversaries of the start date, so that the result is the smallest anniversary after `now`. -/
theorem NextDate_yearly (now : Time) (dateStr rule : String) (rest : List String) (date : Time)
    (hdate : Parse dateStr = .ok date) (hrule : Split rule ' ' = "y" :: rest) :
    ∃ k : Nat, 0 < k ∧ (yearlyTarget date k).After now = true ∧
      (∀ j : Nat, 0 < j → j < k → (yearlyTarget date j).After now = false) ∧
      (∀ fuel : Nat, k ≤ fuel →
        NextDate fuel now dateStr rule = some (.ok (yearlyTarget date k).Format)) ∧
      (yearlyTarget date k).Year = date.Year + k ∧
      (yearlyTarget date k).Month = (if date.Month = 2 ∧ date.Day = 29 then 3 else date.Month) ∧
      (yearlyTarget date k).Day = (if date.Month = 2 ∧ date.Day = 29 then 1 else date.Day) ∧
      (¬(date.Month = 2 ∧ date.Day = 29) → ∀ j : Nat, yearlyTarget date j = anniversary date j) := by
  have hmid := Parse_midnight hdate
  have hK := yearlyTarget_after now date
  rw [← iterate_addYear hmid] at hK
  obtain ⟨k, hk0, _, hk, hfirst, hfuel⟩ := calculateNextDate_exists (by omega) hK
  obtain ⟨k', rfl⟩ : ∃ k', k = k' + 1 := ⟨k - 1, by omega⟩
  have hiter : ∀ j : Nat, 0 < j →
      (fun d : Time => d.AddDate 1 0 0)^[j] date = yearlyTarget date j := by
    intro j hj
    obtain ⟨j', rfl⟩ : ∃ j', j = j' + 1 := ⟨j - 1, by omega⟩
    exact iterate_addYear hmid j'
  obtain ⟨e1, e2, e3⟩ := yearlyTarget_civil date (k' + 1)
  refine ⟨k' + 1, hk0, by rw [← hiter _ hk0]; exact hk, ?_, ?_, e1, ?_, ?_, ?_⟩
  · intro j hj0 hj; rw [← hiter j hj0]; exact hfirst j hj0 hj
  · intro fuel hf
    rw [NextDate_dispatch fuel now (rule_ne_empty hrule (by decide)) hdate hrule,
      if_neg (by decide), if_pos rfl]
    simp only [handleYearly]
    rw [hfuel fuel hf, hiter _ hk0]
  · rw [e2]; unfold yearlyMonthDay; split <;> rfl
  · rw [e3]; unfold yearlyMonthDay; split <;> rfl
  · intro h j
    unfold yearlyTarget anniversary yearlyMonthDay
    rw [if_neg h]

/-- C3 at `now` = 2024-01-15, start date 2024-01-10, rule `y`: the general statement, and
the result `20250110` that the code computes there. -/
theorem NextDate_yearly_witness :
    (∃ k : Nat, 0 < k ∧
      (yearlyTarget (Date 2024 1 10 0 0 0 0) k).After (Date 2024 1 15 0 0 0 0) = true ∧
      (∀ j : Nat, 0 < j → j < k →
        (yearlyTarget (Date 2024 1 10 0 0 0 0) j).After (Date 2024 1 15 0 0 0 0) = false) ∧
      (∀ fuel : Nat, k ≤ fuel →
        NextDate fuel (Date 2024 1 15 0 0 0 0) "20240110" "y"
          = some (.ok (yearlyTarget (Date 2024 1 10 0 0 0 0) k).Format)) ∧
      (yearlyTarget (Date 2024 1 10 0 0 0 0) k).Year = (Date 2024 1 10 0 0 0 0).Year + k ∧
      (yearlyTarget (Date 2024 1 10 0 0 0 0) k).Month
        = (if (Date 2024 1 10 0 0 0 0).Month = 2 ∧ (Date 2024 1 10 0 0 0 0).Day = 29 then 3
            else (Date 2024 1 10 0 0 0 0).Month) ∧
      (yearlyTarget (Date 2024 1 10 0 0 0 0) k).Day
        = (if (Date 2024 1 10 0 0 0 0).Month = 2 ∧ (Date 2024 1 10 0 0 0 0).Day = 29 then 1
            else (Date 2024 1 10 0 0 0 0).Day) ∧
      (¬((Date 2024 1 10 0 0 0 0).Month = 2 ∧ (Date 2024 1 10 0 0 0 0).Day = 29) →
        ∀ j : Nat, yearlyTarget (Date 2024 1 10 0 0 0 0) j
          = anniversary (Date 2024 1 10 0 0 0 0) j)) ∧
    NextDate 1 (Date 2024 1 15 0 0 0 0) "20240110" "y" = some (.ok "20250110") :=
  ⟨NextDate_yearly (Date 2024 1 15 0 0 0 0) "20240110" "y" [] (Date 2024 1 10 0 0 0 0)
    (by rfl) (by rfl), by rfl⟩

/-- C3 as stated fails for a 29 February start.  With `now` = 2027-06-01 and start date
2024-02-29 the code returns 2028-03-01, while the smallest anniversary after `now` is
2028-02-29: the anniversaries of the years 2025 to 2027 fall on 1 March and are not after
`now`, the one of the leap year 2028 falls on 29 February and is. -/
theorem NextDate_yearly_counterexample :
    Parse "20240229" = .ok (Date 2024 2 29 0 0 0 0) ∧
    NextDate 4 (Date 2027 6 1 0 0 0 0) "20240229" "y" = some (.ok "20280301") ∧
    (anniversary (Date 2024 2 29 0 0 0 0) 4).After (Date 2027 6 1 0 0 0 0) = true ∧
    (∀ j : Nat, j < 4 →
      (anniversary (Date 2024 2 29 0 0 0 0) j).After (Date 2027 6 1 0 0 0 0) = false) ∧
    (anniversary (Date 2024 2 29 0 0 0 0) 4).Format = "20280229" ∧
    "20280229" ≠ "20280301" :=
  ⟨by rfl, by rfl, by rfl, by decide!, by rfl, by decide⟩

end api

namespace api

open GoTime

/-! ## Parsing of the parameter lists -/

theorem contains_iff (slice : List Int) (item : Int) :
    contains slice item = true ↔ item ∈ slice := by
  induction slice with
  | nil => simp [contains]
  | cons v rest ih =>
    simp only [contains, List.mem_cons]
    by_cases h : v = item
    · simp [h]
    · rw [if_neg h, ih]
      constructor
      · intro h'; exact Or.inr h'
      · rintro (h' | h')
        · exact absurd h'.symm h
        · exact h'

theorem splitChars_ne_nil (sep : Char) (cs : List Char) : splitChars sep cs ≠ [] := by
  cases cs with
  | nil => simp [splitChars]
  | cons c cs =>
    simp only [splitChars]
    split
    · simp
    · split <;> simp

theorem Split_ne_nil (s : String) (sep : Char) : Split s sep ≠ [] := by
  simp [Split, splitChars_ne_nil]

theorem parseIntList_loop_length {parts : List String} {acc r : List Int}
    (h : parseIntList.loop parts acc = .ok r) : r.length = acc.length + parts.length := by
  induction parts generalizing acc with
  | nil => simp only [parseIntList.loop] at h; cases h; simp
  | cons p ps ih =>
    simp only [parseIntList.loop] at h
    split at h
    · cases h
    · rw [ih h]; simp; omega

/-- A list that `parseIntList` returns is never empty. -/
theorem parseIntList_ne_nil {s : String} {r : List Int} (h : parseIntList s = .ok r) :
    r ≠ [] := by
  have hl := parseIntList_loop_length h
  have hs := Split_ne_nil s ','
  intro e
  rw [e] at hl
  simp only [List.length_nil, zero_add] at hl
  exact hs (List.length_eq_zero.1 hl.symm)

theorem outOfRange_false_iff (days : List Int) :
    parseWeekdays.outOfRange days = false ↔ ∀ d ∈ days, 1 ≤ d ∧ d ≤ 7 := by
  induction days with
  | nil => simp [parseWeekdays.outOfRange]
  | cons d ds ih =>
    simp only [parseWeekdays.outOfRange, daysInWeek, List.mem_cons, forall_eq_or_imp]
    by_cases h : d < 1 ∨ d > 7
    · rw [if_pos h]; simp; intro h1 h2; omega
    · rw [if_neg h, ih]
      constructor
      · intro h'; exact ⟨by omega, h'⟩
      · intro h'; exact h'.2

theorem adjust_eq (days acc : List Int) :
    parseWeekdays.adjust days acc = acc ++ days.map (fun d => if d = 7 then 0 else d) := by
  induction days generalizing acc with
  | nil => simp [parseWeekdays.adjust]
  | cons d ds ih =>
    simp only [parseWeekdays.adjust, sundayWeekday, List.map_cons]
    split <;> rw [ih] <;> simp [*]

/-- On a list of values all in `1..7`, `parseWeekdays` returns the list with 7 turned into
0. -/
theorem parseWeekdays_ok {s : String} {days : List Int} (h : parseIntList s = .ok days)
    (hr : ∀ d ∈ days, 1 ≤ d ∧ d ≤ 7) :
    parseWeekdays s = .ok (days.map (fun d => if d = 7 then 0 else d)) := by
  simp only [parseWeekdays, h, (outOfRange_false_iff days).2 hr, adjust_eq]
  simp

end api

namespace api

open GoTime

/-! ## The weekly scan -/

theorem contains_map_iff (days : List Int) (w : Int) :
    contains (days.map (fun d => if d = 7 then 0 else d)) w = true
      ↔ ∃ d ∈ days, w = if d = 7 then 0 else d := by
  rw [contains_iff, List.mem_map]
  constructor
  · rintro ⟨d, hd, e⟩; exact ⟨d, hd, e.symm⟩
  · rintro ⟨d, hd, e⟩; exact ⟨d, hd, e.symm⟩

/-- From a start date at midnight, a day after `now` on the weekday `w` lies at most six
days after the later of the start date and the day that follows `now`. -/
theorem weekly_target (now date : Time) (hmid : date.ns % nsPerDay = 0) (w : Int)
    (hw0 : 0 ≤ w) (hw7 : w < 7) :
    ∃ K : Nat, (K : Int) ≤ max 0 (now.absDay + 1 - date.absDay) + 6 ∧
      (shift date K).After now = true ∧ (shift date K).Weekday = w := by
  have hwd := date.Weekday_range
  have hns := date.ns_split
  have hnow := now.ns_split
  generalize hK0 : (now.absDay + 1 - date.absDay).toNat = K0
  generalize hj : ((w - (date.Weekday + K0)) % 7).toNat = j
  have hj' : (j : Int) = (w - (date.Weekday + K0)) % 7 := by
    rw [← hj]; omega
  refine ⟨K0 + j, ?_, ?_, ?_⟩
  · have : (K0 : Int) = max 0 (now.absDay + 1 - date.absDay) := by
      rw [← hK0]; omega
    push_cast; omega
  · rw [Time.after_iff]
    simp only [shift]
    have h1 : now.absDay + 1 - date.absDay ≤ ((K0 + j : Nat) : Int) := by
      rw [← hK0]; push_cast; omega
    have h2 : now.ns % nsPerDay < nsPerDay := Int.emod_lt_of_pos _ nsPerDay_pos
    have h3 : (now.absDay + 1 - date.absDay) * nsPerDay ≤ ((K0 + j : Nat) : Int) * nsPerDay :=
      mul_le_mul_of_nonneg_right h1 (by decide)
    have h4 : (now.absDay + 1 - date.absDay) * nsPerDay
        = now.absDay * nsPerDay + nsPerDay - date.absDay * nsPerDay := by ring
    omega
  · rw [shift_weekday]; push_cast; omega

/-- The stopping test of the weekly scan. -/
theorem weekly_stop_iff (now : Time) (days : List Int) (d : Time) :
    (d.After now && contains (days.map (fun d => if d = 7 then 0 else d)) d.Weekday) = true
      ↔ d.After now = true ∧ ∃ a ∈ days, d.Weekday = if a = 7 then 0 else a := by
  rw [Bool.and_eq_true, contains_map_iff]

/-- The weekly scan from a start date at midnight, for a non-empty list of days in `1..7`:
it returns the first day from the start date on that is after `now` and on a listed weekday,
and that day is at most six days after the later of the start date and the day that follows
`now`. -/
theorem weekly_scan (now date : Time) (hmid : date.ns % nsPerDay = 0) (days : List Int)
    (hne : days ≠ []) (hrange : ∀ d ∈ days, 1 ≤ d ∧ d ≤ 7) :
    ∃ k : Nat, (k : Int) ≤ max 0 (now.absDay + 1 - date.absDay) + 6 ∧
      ((shift date k).After now = true ∧
        ∃ a ∈ days, (shift date k).Weekday = if a = 7 then 0 else a) ∧
      (∀ j : Nat, j < k → ¬((shift date j).After now = true ∧
        ∃ a ∈ days, (shift date j).Weekday = if a = 7 then 0 else a)) ∧
      ∀ fuel : Nat, k < fuel →
        handleWeekly.loop now (days.map (fun d => if d = 7 then 0 else d)) fuel date
          = some (shift date k) := by
  obtain ⟨a, as, rfl⟩ : ∃ a as, days = a :: as := by
    cases days with
    | nil => exact absurd rfl hne
    | cons a as => exact ⟨a, as, rfl⟩
  have ha := hrange a (by simp)
  obtain ⟨K, hKb, hKa, hKw⟩ := weekly_target now date hmid (if a = 7 then 0 else a)
    (by split <;> omega) (by split <;> omega)
  have hstop : (fun d : Time => d.After now &&
      contains ((a :: as).map (fun d => if d = 7 then 0 else d)) d.Weekday) (shift date K)
      = true := by
    show (_ && _) = true
    rw [weekly_stop_iff]
    exact ⟨hKa, a, by simp, hKw⟩
  obtain ⟨k, hk, hks, hfirst, hfuel⟩ := scan_exists (fun d : Time => d.After now &&
      contains ((a :: as).map (fun d => if d = 7 then 0 else d)) d.Weekday) date hstop
  refine ⟨k, by omega, (weekly_stop_iff now _ _).1 hks, ?_, ?_⟩
  · intro j hj hq
    have := hfirst j hj
    rw [← Bool.not_eq_true] at this
    exact this ((weekly_stop_iff now _ _).2 hq)
  · intro fuel hf
    rw [handleWeekly_loop_eq]; exact hfuel fuel hf

/-- C4.  For every `now`, every start date that parses and every weekly rule whose list
parses to values all in `1..7`, `NextDate` returns, given enough fuel, a day `r` at or after
the start date such that the weekday of `r` is in the list after the remapping of 7 to 0,
`r` is after `now`, and no day from the start date up to the day before `r` is both after
`now` and on a listed weekday; `r` is the start date itself when that one is after `now` and
on a listed weekday. -/
theorem NextDate_weekly (now : Time) (dateStr rule tok : String) (rest : List String)
    (date : Time) (days : List Int) (hdate : Parse dateStr = .ok date)
    (hrule : Split rule ' ' = "w" :: tok :: rest) (hlist : parseIntList tok = .ok days)
    (hrange : ∀ d ∈ days, 1 ≤ d ∧ d ≤ 7) :
    ∃ k : Nat,
      (∀ fuel : Nat, k < fuel →
        NextDate fuel now dateStr rule = some (.ok (date.AddDate 0 0 k).Format)) ∧
      (∃ a ∈ days, (date.AddDate 0 0 k).Weekday = if a = 7 then 0 else a) ∧
      (date.AddDate 0 0 k).After now = true ∧
      date.ns ≤ (date.AddDate 0 0 k).ns ∧
      (∀ j : Nat, j < k → ¬((date.AddDate 0 0 j).After now = true ∧
        ∃ a ∈ days, (date.AddDate 0 0 j).Weekday = if a = 7 then 0 else a)) ∧
      ((date.After now = true ∧ ∃ a ∈ days, date.Weekday = if a = 7 then 0 else a) →
        date.AddDate 0 0 k = date) := by
  obtain ⟨k, _, hq, hfirst, hfuel⟩ := weekly_scan now date (Parse_midnight hdate) days
    (parseIntList_ne_nil hlist) hrange
  refine ⟨k, ?_, ?_, ?_, ?_, ?_, ?_⟩
  · intro fuel hf
    rw [NextDate_dispatch fuel now (rule_ne_empty hrule (by decide)) hdate hrule,
      if_neg (by decide), if_neg (by decide), if_pos rfl]
    simp only [handleWeekly, parseWeekdays_ok hlist hrange, hfuel fuel hf, addDate_days]
  · rw [addDate_days]; exact hq.2
  · rw [addDate_days]; exact hq.1
  · rw [Time.AddDate_days_ns]
    have : (0 : Int) ≤ k * nsPerDay := mul_nonneg (by positivity) (by decide)
    omega
  · intro j hj; rw [addDate_days]; exact hfirst j hj
  · intro h0
    have : k = 0 := by
      by_contra hk
      exact hfirst 0 (by omega) (by simpa [shift_zero] using h0)
    rw [this, addDate_days]; simp [shift_zero]

/-- C4 at `now` = 2024-01-15, start date 2024-01-10, rule `w 1,3`: the general statement,
and the result `20240117` that the code computes there. -/
theorem NextDate_weekly_witness :
    (∃ k : Nat,
      (∀ fuel : Nat, k < fuel →
        NextDate fuel (Date 2024 1 15 0 0 0 0) "20240110" "w 1,3"
          = some (.ok ((Date 2024 1 10 0 0 0 0).AddDate 0 0 k).Format)) ∧
      (∃ a ∈ [(1 : Int), 3],
        ((Date 2024 1 10 0 0 0 0).AddDate 0 0 k).Weekday = if a = 7 then 0 else a) ∧
      ((Date 2024 1 10 0 0 0 0).AddDate 0 0 k).After (Date 2024 1 15 0 0 0 0) = true ∧
      (Date 2024 1 10 0 0 0 0).ns ≤ ((Date 2024 1 10 0 0 0 0).AddDate 0 0 k).ns ∧
      (∀ j : Nat, j < k →
        ¬(((Date 2024 1 10 0 0 0 0).AddDate 0 0 j).After (Date 2024 1 15 0 0 0 0) = true ∧
          ∃ a ∈ [(1 : Int), 3],
            ((Date 2024 1 10 0 0 0 0).AddDate 0 0 j).Weekday = if a = 7 then 0 else a)) ∧
      (((Date 2024 1 10 0 0 0 0).After (Date 2024 1 15 0 0 0 0) = true ∧
          ∃ a ∈ [(1 : Int), 3], (Date 2024 1 10 0 0 0 0).Weekday = if a = 7 then 0 else a) →
        (Date 2024 1 10 0 0 0 0).AddDate 0 0 k = Date 2024 1 10 0 0 0 0)) ∧
    NextDate 8 (Date 2024 1 15 0 0 0 0) "20240110" "w 1,3" = some (.ok "20240117") :=
  ⟨NextDate_weekly (Date 2024 1 15 0 0 0 0) "20240110" "w 1,3" "1,3" []
    (Date 2024 1 10 0 0 0 0) [1, 3] (by rfl) (by rfl) (by rfl) (by decide), by rfl⟩

end api

namespace api

open GoTime

/-! ## The monthly scan -/

theorem dateToDays_lastDay {y m : Int} (hm1 : 1 ≤ m) (hm2 : m ≤ 12) :
    dateToDays y (m + 1) 0 = dateToDays y m (daysIn m y) := by
  by_cases h12 : m = 12
  · subst h12
    have e : dateToDays y (12 + 1) 0 = daysSinceEpoch (y + 1) - 1 := by
      simp only [dateToDays]
      norm_num [daysBefore]
      omega
    rw [e, daysSinceEpoch_succ, dateToDays_month _ (by decide) (by decide), yearLen_eq]
    by_cases hl : isLeap y = true
    · simp only [hl, ydayOf, daysIn]; norm_num [daysBefore]; omega
    · simp only [hl, ydayOf, daysIn]; norm_num [daysBefore]; omega
  · rw [dateToDays_month _ (by omega) (by omega), dateToDays_month _ hm1 hm2]
    congr 1
    rcases month_cases hm1 hm2 with h | h | h | h | h | h | h | h | h | h | h | h <;>
      subst h <;> first | omega | skip
    all_goals
      by_cases hl : isLeap y = true
      · simp only [hl, ydayOf, daysIn]; norm_num [daysBefore]
      · simp only [hl, ydayOf, daysIn]; norm_num [daysBefore]

theorem daysIn_pos {m : Int} (hm1 : 1 ≤ m) (hm2 : m ≤ 12) (y : Int) : 28 ≤ daysIn m y := by
  by_cases h2 : m = 2
  · subst h2; rw [daysIn_feb]; split <;> omega
  · unfold daysIn
    rw [if_neg (by tauto)]
    rcases month_cases hm1 hm2 with h | h | h | h | h | h | h | h | h | h | h | h <;>
      subst h <;> first | omega | decide

/-- The `lastDay` of `isValidMonthDay` is the length of the month of `date`. -/
theorem lastDay_eq (date : Time) :
    (Date date.Year (date.Month + 1) 0 0 0 0 0).Day = daysIn date.Month date.Year := by
  obtain ⟨a, b, _, _, _⟩ := date.civil_spec
  have h28 := daysIn_pos a b date.Year
  have := Time.civil_eq (t := Date date.Year (date.Month + 1) 0 0 0 0 0) a b
    (d := daysIn date.Month date.Year) (by omega) (le_refl _)
    (by rw [Date_absDay, dateToDays_lastDay a b])
  exact this.2.2

theorem isValidMonthDay_loop_iff (date : Time) (days : List Int) :
    isValidMonthDay.loop date date.Day days = true ↔ ∃ sel ∈ days, selectorMatches date sel := by
  obtain ⟨_, _, _, hd, _⟩ := date.civil_spec
  induction days with
  | nil => simp [isValidMonthDay.loop]
  | cons s ss ih =>
    simp only [isValidMonthDay.loop, List.mem_cons, exists_eq_or_imp, lastDay_eq]
    by_cases hs : s > 0
    · rw [if_pos hs]
      by_cases he : s = date.Day
      · rw [if_pos he]
        simp only [true_iff]
        exact Or.inl (Or.inl ⟨hs, he.symm⟩)
      · rw [if_neg he, ih]
        constructor
        · exact Or.inr
        · rintro (h | h)
          · rcases h with ⟨_, h⟩ | ⟨h, _⟩
            · exact absurd h.symm he
            · omega
          · exact h
    · rw [if_neg hs]
      by_cases he : daysIn date.Month date.Year + s + 1 = date.Day
      · rw [if_pos he]
        simp only [true_iff]
        exact Or.inl (Or.inr ⟨by omega, he.symm⟩)
      · rw [if_neg he, ih]
        constructor
        · exact Or.inr
        · rintro (h | h)
          · rcases h with ⟨h, _⟩ | ⟨_, h⟩
            · omega
            · exact absurd h.symm he
          · exact h

/-- The test of the code and the matching of the specification agree. -/
theorem isValidMonthDay_iff (date : Time) (days months : List Int) :
    isValidMonthDay date days months = true ↔ monthlyMatch date days months := by
  unfold isValidMonthDay monthlyMatch
  simp only
  cases months with
  | nil => simp [isValidMonthDay_loop_iff]
  | cons m ms =>
    by_cases hc : contains (m :: ms) date.Month = true
    · have hmem := (contains_iff _ _).1 hc
      rw [if_neg (by simp [hc]), isValidMonthDay_loop_iff]
      simp only [hmem, or_true, and_true]
    · have hmem : date.Month ∉ m :: ms := fun h => hc ((contains_iff _ _).2 h)
      rw [if_pos ⟨by simp, by simpa using hc⟩]
      simp [hmem]

theorem monthly_stop_iff (now : Time) (days months : List Int) (d : Time) :
    (d.After now && isValidMonthDay d days months) = true
      ↔ d.After now = true ∧ monthlyMatch d days months := by
  rw [Bool.and_eq_true, isValidMonthDay_iff]

end api

namespace api

open GoTime

/-- `handleMonthly` on a rule whose lists parse and whose days pass validation: the scan. -/
theorem handleMonthly_eq {tag tok : String} {rest : List String} {days months : List Int}
    (fuel : Nat) (now date : Time) (hlist : parseIntList tok = .ok days)
    (hvalid : validateMonthDays days = true) (hmonths : handleMonthly.months rest = .ok months) :
    handleMonthly fuel now date (tag :: tok :: rest) =
      match scan (fun d => d.After now && isValidMonthDay d days months) fuel date with
      | none => none
      | some r => some (.ok r.Format) := by
  simp only [handleMonthly, hlist, hvalid, hmonths, handleMonthly_loop_eq]
  rfl

theorem NextDate_monthly_eq {dateStr rule tok : String} {rest : List String} {date : Time}
    {days months : List Int} (fuel : Nat) (now : Time) (hdate : Parse dateStr = .ok date)
    (hrule : Split rule ' ' = "m" :: tok :: rest) (hlist : parseIntList tok = .ok days)
    (hvalid : validateMonthDays days = true) (hmonths : handleMonthly.months rest = .ok months) :
    NextDate fuel now dateStr rule =
      match scan (fun d => d.After now && isValidMonthDay d days months) fuel date with
      | none => none
      | some r => some (.ok r.Format) := by
  rw [NextDate_dispatch fuel now (rule_ne_empty hrule (by decide)) hdate hrule,
    if_neg (by decide), if_neg (by decide), if_neg (by decide), if_pos rfl,
    handleMonthly_eq fuel now date hlist hvalid hmonths]

/-- C5, as the code has it.  For every `now`, every start date that parses and every
monthly rule whose lists parse and whose days pass validation: whenever `NextDate` returns,
the result is the earliest day from the start date on that is after `now`, whose day of the
month matches one of the selectors and whose month is in the months list when one is given;
and `NextDate` does return, given enough fuel, whenever such a day exists. -/
theorem NextDate_monthly (now : Time) (dateStr rule tok : String) (rest : List String)
    (date : Time) (days months : List Int) (hdate : Parse dateStr = .ok date)
    (hrule : Split rule ' ' = "m" :: tok :: rest) (hlist : parseIntList tok = .ok days)
    (hvalid : validateMonthDays days = true) (hmonths : handleMonthly.months rest = .ok months) :
    (∀ (fuel : Nat) (s : String), NextDate fuel now dateStr rule = some (.ok s) →
      ∃ k : Nat, k < fuel ∧ s = (date.AddDate 0 0 k).Format ∧
        (date.AddDate 0 0 k).After now = true ∧
        monthlyMatch (date.AddDate 0 0 k) days months ∧
        ∀ j : Nat, j < k → ¬((date.AddDate 0 0 j).After now = true ∧
          monthlyMatch (date.AddDate 0 0 j) days months)) ∧
    (∀ K : Nat, (date.AddDate 0 0 K).After now = true →
      monthlyMatch (date.AddDate 0 0 K) days months →
      ∃ k : Nat, k ≤ K ∧ ∀ fuel : Nat, k < fuel →
        NextDate fuel now dateStr rule = some (.ok (date.AddDate 0 0 k).Format)) := by
  constructor
  · intro fuel s h
    rw [NextDate_monthly_eq fuel now hdate hrule hlist hvalid hmonths] at h
    split at h
    · cases h
    · rename_i r hr
      cases h
      obtain ⟨k, hk, e, hst, hfirst⟩ := scan_some hr
      have hq := (monthly_stop_iff now days months r).1 hst
      rw [e] at hq
      refine ⟨k, hk, by rw [e, addDate_days], by rw [addDate_days]; exact hq.1,
        by rw [addDate_days]; exact hq.2, ?_⟩
      intro j hj hqj
      rw [addDate_days] at hqj
      have := hfirst j hj
      rw [← Bool.not_eq_true] at this
      exact this ((monthly_stop_iff now days months _).2 hqj)
  · intro K hK hM
    rw [addDate_days] at hK hM
    obtain ⟨k, hk, _, _, hfuel⟩ := scan_exists
      (fun d : Time => d.After now && isValidMonthDay d days months) date
      ((monthly_stop_iff now days months (shift date K)).2 ⟨hK, hM⟩)
    refine ⟨k, hk, fun fuel hf => ?_⟩
    rw [NextDate_monthly_eq fuel now hdate hrule hlist hvalid hmonths, hfuel fuel hf,
      addDate_days]

/-- C5 at `now` = 2024-02-01, start date 2024-01-01, rule `m -1`: the general statement, and
the results that the code computes there (`20240229`) and at `now` = 2024-01-01, start date
2024-01-01, rule `m 15,20 3,6` (`20240315`). -/
theorem NextDate_monthly_witness :
    ((∀ (fuel : Nat) (s : String),
        NextDate fuel (Date 2024 2 1 0 0 0 0) "20240101" "m -1" = some (.ok s) →
        ∃ k : Nat, k < fuel ∧ s = ((Date 2024 1 1 0 0 0 0).AddDate 0 0 k).Format ∧
          ((Date 2024 1 1 0 0 0 0).AddDate 0 0 k).After (Date 2024 2 1 0 0 0 0) = true ∧
          monthlyMatch ((Date 2024 1 1 0 0 0 0).AddDate 0 0 k) [-1] [] ∧
          ∀ j : Nat, j < k →
            ¬(((Date 2024 1 1 0 0 0 0).AddDate 0 0 j).After (Date 2024 2 1 0 0 0 0) = true ∧
              monthlyMatch ((Date 2024 1 1 0 0 0 0).AddDate 0 0 j) [-1] [])) ∧
      (∀ K : Nat, ((Date 2024 1 1 0 0 0 0).AddDate 0 0 K).After (Date 2024 2 1 0 0 0 0) = true →
        monthlyMatch ((Date 2024 1 1 0 0 0 0).AddDate 0 0 K) [-1] [] →
        ∃ k : Nat, k ≤ K ∧ ∀ fuel : Nat, k < fuel →
          NextDate fuel (Date 2024 2 1 0 0 0 0) "20240101" "m -1"
            = some (.ok ((Date 2024 1 1 0 0 0 0).AddDate 0 0 k).Format))) ∧
    NextDate 60 (Date 2024 2 1 0 0 0 0) "20240101" "m -1" = some (.ok "20240229") ∧
    NextDate 75 (Date 2024 1 1 0 0 0 0) "20240101" "m 15,20 3,6" = some (.ok "20240315") :=
  ⟨NextDate_monthly (Date 2024 2 1 0 0 0 0) "20240101" "m -1" "-1" [] (Date 2024 1 1 0 0 0 0)
    [-1] [] (by rfl) (by rfl) (by rfl) (by rfl) (by rfl), by rfl, by rfl⟩

/-- C5 as stated fails when the start date is later than the day after `now`.  With `now` =
2024-01-01, start date 2024-02-20 and rule `m 15` the code returns 2024-03-15, while
2024-01-15 is after `now`, matches the selector 15 and is earlier. -/
theorem NextDate_monthly_counterexample :
    Parse "20240220" = .ok (Date 2024 2 20 0 0 0 0) ∧
    NextDate 25 (Date 2024 1 1 0 0 0 0) "20240220" "m 15" = some (.ok "20240315") ∧
    (Date 2024 3 15 0 0 0 0).Format = "20240315" ∧
    (Date 2024 1 15 0 0 0 0).After (Date 2024 1 1 0 0 0 0) = true ∧
    monthlyMatch (Date 2024 1 15 0 0 0 0) [15] [] ∧
    (Date 2024 1 15 0 0 0 0).Before (Date 2024 3 15 0 0 0 0) = true :=
  ⟨by rfl, by rfl, by rfl, by rfl,
    ⟨⟨15, by simp, Or.inl ⟨by decide, by rfl⟩⟩, Or.inl rfl⟩, by rfl⟩

end api

namespace api

open GoTime

/-- C6, as the code has it.  For every `now`, every date string and every rule whose leading
space-separated tag is not one of `d`, `y`, `w`, `m` (the empty rule among them), `NextDate`
fails: with `ErrRepeatRequired` for the empty rule, whatever the date string; for a rule
that is not empty with `ErrInvalidTags` when the date string parses and with the error of
`time.Parse` when it does not. -/
theorem NextDate_invalid_rule (fuel : Nat) (now : Time) (dateStr rule tag : String)
    (params : List String) (hrule : Split rule ' ' = tag :: params)
    (htag : tag ≠ "d" ∧ tag ≠ "y" ∧ tag ≠ "w" ∧ tag ≠ "m") :
    (rule = "" → NextDate fuel now dateStr rule = some (.error .ErrRepeatRequired)) ∧
    (rule ≠ "" → ∀ date, Parse dateStr = .ok date →
      NextDate fuel now dateStr rule = some (.error .ErrInvalidTags)) ∧
    (rule ≠ "" → ∀ e, Parse dateStr = .error e →
      NextDate fuel now dateStr rule = some (.error e)) := by
  refine ⟨?_, ?_, ?_⟩
  · intro h; simp [NextDate, h]
  · intro h date hdate
    rw [NextDate_dispatch fuel now h hdate hrule, if_neg htag.1, if_neg htag.2.1,
      if_neg htag.2.2.1, if_neg htag.2.2.2]
  · intro h e he
    unfold NextDate
    rw [if_neg h, he]

/-- C6 at date `20240105` and rule `k 3`: the general statement, and the errors that the
code returns there and for the empty rule. -/
theorem NextDate_invalid_rule_witness :
    (("k 3" = "" →
        NextDate 0 (Date 2024 1 10 0 0 0 0) "20240105" "k 3"
          = some (.error .ErrRepeatRequired)) ∧
      ("k 3" ≠ "" → ∀ date, Parse "20240105" = .ok date →
        NextDate 0 (Date 2024 1 10 0 0 0 0) "20240105" "k 3" = some (.error .ErrInvalidTags)) ∧
      ("k 3" ≠ "" → ∀ e, Parse "20240105" = .error e →
        NextDate 0 (Date 2024 1 10 0 0 0 0) "20240105" "k 3" = some (.error e))) ∧
    NextDate 0 (Date 2024 1 10 0 0 0 0) "20240105" "k 3" = some (.error .ErrInvalidTags) ∧
    NextDate 0 (Date 2024 1 10 0 0 0 0) "20240105" "" = some (.error .ErrRepeatRequired) :=
  ⟨NextDate_invalid_rule 0 (Date 2024 1 10 0 0 0 0) "20240105" "k 3" "k" ["3"] (by rfl)
    (by decide), by rfl, by rfl⟩

/-- C6 as stated fails for a date string that does not parse: with the rule `k 3` the date
string `x` gives the error of `time.Parse`, which is not an invalid-rule error, while the
date string `20240105` gives `ErrInvalidTags`; the outcome depends on the date string. -/
theorem NextDate_invalid_rule_counterexample :
    NextDate 0 (Date 2024 1 10 0 0 0 0) "x" "k 3" = some (.error .parse) ∧
    ¬invalidRule .parse ∧
    NextDate 0 (Date 2024 1 10 0 0 0 0) "20240105" "k 3" = some (.error .ErrInvalidTags) :=
  ⟨by rfl, by unfold invalidRule; decide, by rfl⟩

/-! ## Invalid parameters -/

theorem Atoi_error {s : String} {e : Error} (h : Atoi s = .error e) : e = .num := by
  unfold Atoi at h
  split at h
  · cases h; rfl
  · simp only at h
    split at h
    · cases h; rfl
    · split at h
      · cases h; rfl
      · split_ifs at h <;> (cases h; rfl)

theorem parseIntList_loop_error {parts : List String} {acc : List Int} {e : Error}
    (h : parseIntList.loop parts acc = .error e) : e = .num := by
  induction parts generalizing acc with
  | nil => simp [parseIntList.loop] at h
  | cons p ps ih =>
    simp only [parseIntList.loop] at h
    split at h
    · rename_i e' he'
      cases h
      exact Atoi_error he'
    · exact ih h

/-- A list with a token that is not an integer is rejected. -/
theorem parseIntList_loop_bad {parts : List String} (acc : List Int)
    (h : ∃ part ∈ parts, ∃ e, Atoi part = .error e) :
    parseIntList.loop parts acc = .error .num := by
  induction parts generalizing acc with
  | nil => simp at h
  | cons p ps ih =>
    simp only [parseIntList.loop]
    split
    · rename_i e' he'
      rw [Atoi_error he']
    · rename_i v hv
      apply ih
      obtain ⟨part, hp, e, he⟩ := h
      rcases List.mem_cons.1 hp with rfl | hp'
      · rw [hv] at he; cases he
      · exact ⟨part, hp', e, he⟩

/-- Every value read from a token is in the list that `parseIntList` returns. -/
theorem parseIntList_loop_mem {parts : List String} {acc r : List Int}
    (h : parseIntList.loop parts acc = .ok r) :
    (∀ v ∈ acc, v ∈ r) ∧ ∀ part ∈ parts, ∀ v, Atoi part = .ok v → v ∈ r := by
  induction parts generalizing acc with
  | nil =>
    simp only [parseIntList.loop] at h
    cases h
    exact ⟨fun v hv => hv, by simp⟩
  | cons p ps ih =>
    simp only [parseIntList.loop] at h
    split at h
    · cases h
    · rename_i num hnum
      obtain ⟨h1, h2⟩ := ih h
      refine ⟨fun v hv => h1 v (by simp [hv]), ?_⟩
      intro part hp v hv
      rcases List.mem_cons.1 hp with rfl | hp'
      · rw [hnum] at hv; cases hv
        exact h1 _ (by simp)
      · exact h2 part hp' v hv

theorem parseIntList_bad {s : String} (h : hasBadToken s) : parseIntList s = .error .num :=
  parseIntList_loop_bad [] h

theorem parseIntList_cases (s : String) :
    parseIntList s = .error .num ∨ ∃ days, parseIntList s = .ok days := by
  cases h : parseIntList s with
  | error e => left; rw [parseIntList_loop_error h]
  | ok days => right; exact ⟨days, rfl⟩

theorem validateMonthDays_false {days : List Int}
    (h : ∃ d ∈ days, d = 0 ∨ 31 < d ∨ d < -2) : validateMonthDays days = false := by
  induction days with
  | nil => simp at h
  | cons d ds ih =>
    simp only [validateMonthDays, maxMonthDay, minMonthDay]
    by_cases hd : d > 31 ∨ d = 0 ∨ d < -2
    · rw [if_pos hd]
    · rw [if_neg hd]
      apply ih
      obtain ⟨x, hx, hb⟩ := h
      rcases List.mem_cons.1 hx with rfl | hx'
      · omega
      · exact ⟨x, hx', hb⟩

theorem outOfRange_true {days : List Int} (h : ∃ d ∈ days, d < 1 ∨ 7 < d) :
    parseWeekdays.outOfRange days = true := by
  by_contra hc
  rw [Bool.not_eq_true, outOfRange_false_iff] at hc
  obtain ⟨d, hd, hb⟩ := h
  have := hc d hd
  omega

end api

namespace api

open GoTime

theorem handleDaily_bad (fuel : Nat) (now date : Time) (tok : String) (rest : List String)
    (h : (∃ e, Atoi tok = .error e) ∨ ∃ n, Atoi tok = .ok n ∧ (n < 1 ∨ 400 < n)) :
    ∃ e, invalidParameter e ∧ handleDaily fuel now date ("d" :: tok :: rest) = some (.error e) := by
  rcases h with ⟨e, he⟩ | ⟨n, hn, hr⟩
  · refine ⟨.num, by simp [invalidParameter], ?_⟩
    rw [Atoi_error he] at he
    simp only [handleDaily, he]
  · by_cases h1 : n < 1
    · refine ⟨.daysTooSmall, by simp [invalidParameter], ?_⟩
      simp only [handleDaily, hn, if_pos h1]
    · refine ⟨.daysTooLarge, by simp [invalidParameter], ?_⟩
      simp only [handleDaily, hn, if_neg h1, maxDailyDays]
      rw [if_pos (by omega)]

theorem handleWeekly_bad (fuel : Nat) (now date : Time) (tok : String) (rest : List String)
    (h : hasBadToken tok ∨ hasValue tok (fun v => v < 1 ∨ 7 < v)) :
    ∃ e, invalidParameter e ∧ handleWeekly fuel now date ("w" :: tok :: rest) = some (.error e) := by
  rcases parseIntList_cases tok with hp | ⟨days, hp⟩
  · refine ⟨.num, by simp [invalidParameter], ?_⟩
    simp only [handleWeekly, parseWeekdays, hp]
  · rcases h with h | ⟨part, hpart, v, hv, hb⟩
    · rw [parseIntList_bad h] at hp; cases hp
    · refine ⟨.ErrInvalidWeekday, by simp [invalidParameter], ?_⟩
      have hmem := (parseIntList_loop_mem hp).2 part hpart v hv
      simp only [handleWeekly, parseWeekdays, hp, outOfRange_true ⟨v, hmem, hb⟩, if_true]

theorem handleMonthly_bad (fuel : Nat) (now date : Time) (tok : String) (rest : List String)
    (h : hasBadToken tok ∨ hasValue tok (fun v => v = 0 ∨ 31 < v ∨ v < -2) ∨
      ∃ tok2 rest2, rest = tok2 :: rest2 ∧ hasBadToken tok2) :
    ∃ e, invalidParameter e ∧
      handleMonthly fuel now date ("m" :: tok :: rest) = some (.error e) := by
  rcases parseIntList_cases tok with hp | ⟨days, hp⟩
  · refine ⟨.num, by simp [invalidParameter], ?_⟩
    simp only [handleMonthly, hp]
  · by_cases hval : validateMonthDays days = true
    · rcases h with h | ⟨part, hpart, v, hv, hb⟩ | ⟨tok2, rest2, rfl, h2⟩
      · rw [parseIntList_bad h] at hp; cases hp
      · have hmem := (parseIntList_loop_mem hp).2 part hpart v hv
        rw [validateMonthDays_false ⟨v, hmem, hb⟩] at hval; cases hval
      · refine ⟨.num, by simp [invalidParameter], ?_⟩
        simp only [handleMonthly, hp, hval, handleMonthly.months, parseIntList_bad h2]
        rfl
    · refine ⟨.ErrInvalidDay, by simp [invalidParameter], ?_⟩
      rw [Bool.not_eq_true] at hval
      simp only [handleMonthly, hp, hval]
      rfl

/-- C7.  For every `now` and every start date that parses, a rule with tag `d`, `w` or `m`
whose required parameter list is missing, or has a token that is not an integer, or has a
value out of range (a daily interval outside `[1,400]`, a weekly day outside `[1,7]`, a
monthly day equal to 0, greater than 31 or less than -2) makes `NextDate` fail with an
invalid-parameter error, whatever the fuel, and return no date. -/
theorem NextDate_invalid_parameter (fuel : Nat) (now : Time) (dateStr rule tag : String)
    (params : List String) (date : Time) (hdate : Parse dateStr = .ok date)
    (hrule : Split rule ' ' = tag :: params) (hbad : badParameters tag params) :
    ∃ e, invalidParameter e ∧ NextDate fuel now dateStr rule = some (.error e) ∧
      ∀ s, NextDate fuel now dateStr rule ≠ some (.ok s) := by
  have key : ∃ e, invalidParameter e ∧ NextDate fuel now dateStr rule = some (.error e) := by
    have htag : tag = "d" ∨ tag = "w" ∨ tag = "m" := by
      cases params with
      | nil => exact hbad
      | cons tok rest =>
        rcases hbad with ⟨h, _⟩ | ⟨h, _⟩ | ⟨h, _⟩
        · exact Or.inl h
        · exact Or.inr (Or.inl h)
        · exact Or.inr (Or.inr h)
    have hne : rule ≠ "" :=
      rule_ne_empty hrule (by rcases htag with h | h | h <;> rw [h] <;> decide)
    rw [NextDate_dispatch fuel now hne hdate hrule]
    cases params with
    | nil =>
      refine ⟨.ErrMissingDaysValue, by simp [invalidParameter], ?_⟩
      rcases htag with h | h | h <;> subst h
      · rw [if_pos rfl]; rfl
      · rw [if_neg (by decide), if_neg (by decide), if_pos rfl]; rfl
      · rw [if_neg (by decide), if_neg (by decide), if_neg (by decide), if_pos rfl]; rfl
    | cons tok rest =>
      rcases hbad with ⟨h, hb⟩ | ⟨h, hb⟩ | ⟨h, hb⟩ <;> subst h
      · rw [if_pos rfl]; exact handleDaily_bad fuel now date tok rest hb
      · rw [if_neg (by decide), if_neg (by decide), if_pos rfl]
        exact handleWeekly_bad fuel now date tok rest hb
      · rw [if_neg (by decide), if_neg (by decide), if_neg (by decide), if_pos rfl]
        exact handleMonthly_bad fuel now date tok rest hb
  obtain ⟨e, he, h⟩ := key
  exact ⟨e, he, h, fun s hs => by rw [h] at hs; cases hs⟩

/-- C7 at date `20240105` and rule `d 500`: the general statement, and the error that the
code returns there. -/
theorem NextDate_invalid_parameter_witness :
    (∃ e, invalidParameter e ∧
      NextDate 0 (Date 2024 1 10 0 0 0 0) "20240105" "d 500" = some (.error e) ∧
      ∀ s, NextDate 0 (Date 2024 1 10 0 0 0 0) "20240105" "d 500" ≠ some (.ok s)) ∧
    NextDate 0 (Date 2024 1 10 0 0 0 0) "20240105" "d 500" = some (.error .daysTooLarge) :=
  ⟨NextDate_invalid_parameter 0 (Date 2024 1 10 0 0 0 0) "20240105" "d 500" "d" ["500"]
    (Date 2024 1 5 0 0 0 0) (by rfl) (by rfl)
    (Or.inl ⟨rfl, Or.inr ⟨500, by rfl, Or.inr (by decide)⟩⟩), by rfl⟩

end api

namespace api

open GoTime

/-! ## The start date and the result -/

/-- A date one year on is a later date. -/
theorem addYear_later (t : Time) : t.ns < (t.AddDate 1 0 0).ns := by
  obtain ⟨a, b, _, _, e⟩ := t.civil_spec
  have hs := t.ns_split
  have h1 := dateToDays_month (y := t.Year + 1) t.Day a b
  have h2 := dateToDays_month (y := t.Year) t.Day a b
  have h3 := daysSinceEpoch_succ t.Year
  have h4 := yearLen_pos t.Year
  have h5 : ydayOf (isLeap t.Year) t.Month t.Day ≤ ydayOf (isLeap (t.Year + 1)) t.Month t.Day + 1 := by
    unfold ydayOf
    split <;> split <;> omega
  have h6 : dateToDays t.Year t.Month t.Day + 1 ≤ dateToDays (t.Year + 1) t.Month t.Day := by
    omega
  have h7 := mul_le_mul_of_nonneg_right h6 (le_of_lt nsPerDay_pos)
  have h8 := nsPerDay_pos
  simp only [Time.AddDate, add_zero]
  rw [add_mul] at h7
  rw [e] at h7
  omega

/-- The iterates of a function that moves every instant forward lie after the start. -/
theorem iterate_later {f : Time → Time} (hf : ∀ t, t.ns < (f t).ns) (date : Time) (k : Nat)
    (hk : 0 < k) : date.ns < (f^[k] date).ns := by
  induction k generalizing date with
  | zero => omega
  | succ k ih =>
    rw [Function.iterate_succ_apply]
    cases k with
    | zero => exact hf date
    | succ k => exact lt_trans (hf date) (ih (f date) (by omega))

theorem handleDaily_later {fuel : Nat} {now date : Time} {repParts : List String} {s : String}
    (h : handleDaily fuel now date repParts = some (.ok s)) :
    ∃ r : Time, s = r.Format ∧ r.ns % nsPerDay = date.ns % nsPerDay ∧ date.ns < r.ns := by
  unfold handleDaily at h
  split at h
  · split at h
    · cases h
    · split at h
      · cases h
      · split at h
        · cases h
        · split at h
          · cases h
          · rename_i n _ hn1 _ _ r hr
            cases h
            obtain ⟨k, hk0, _, hk, _, _⟩ := calculateNextDate_some hr
            refine ⟨r, rfl, calculateNextDate_inv
              (fun t => t.ns % nsPerDay = date.ns % nsPerDay)
              (fun t ht => by show _ = _; rw [addDate_tod]; exact ht) rfl hr, ?_⟩
            rw [hk]
            apply iterate_later _ date k hk0
            intro t
            rw [Time.AddDate_days_ns]
            have : 0 < n * nsPerDay := mul_pos (by omega) nsPerDay_pos
            omega
  · cases h

theorem handleYearly_later {fuel : Nat} {now date : Time} {s : String}
    (h : handleYearly fuel now date = some (.ok s)) :
    ∃ r : Time, s = r.Format ∧ r.ns % nsPerDay = date.ns % nsPerDay ∧ date.ns < r.ns := by
  unfold handleYearly at h
  split at h
  · cases h
  · rename_i r hr
    cases h
    obtain ⟨k, hk0, _, hk, _, _⟩ := calculateNextDate_some hr
    refine ⟨r, rfl, calculateNextDate_inv (fun t => t.ns % nsPerDay = date.ns % nsPerDay)
      (fun t ht => by show _ = _; rw [addDate_tod]; exact ht) rfl hr, ?_⟩
    rw [hk]
    exact iterate_later addYear_later date k hk0

/-- C8, as the code has it.  For every `now` and every start date that parses, a daily or a
yearly rule returns only days strictly after the start date (the returned string is the
format of such a day and of no other), whereas a weekly rule and a monthly rule return the
start date itself when it is after `now` and falls on a listed weekday, respectively when it
is after `now` and qualifies for the monthly rule. -/
theorem NextDate_start_date (now : Time) (dateStr : String) (date : Time)
    (hdate : Parse dateStr = .ok date) :
    (∀ (rule tag : String) (params : List String), Split rule ' ' = tag :: params →
      tag = "d" ∨ tag = "y" → ∀ (fuel : Nat) (s : String),
      NextDate fuel now dateStr rule = some (.ok s) →
      ∃ r : Time, s = r.Format ∧ r.ns % nsPerDay = 0 ∧ r.After date = true ∧
        ∀ u : Time, u.ns % nsPerDay = 0 → u.Format = s → u = r) ∧
    (∀ (rule tok : String) (rest : List String) (days : List Int),
      Split rule ' ' = "w" :: tok :: rest → parseIntList tok = .ok days →
      (∀ d ∈ days, 1 ≤ d ∧ d ≤ 7) →
      date.After now = true → (∃ a ∈ days, date.Weekday = if a = 7 then 0 else a) →
      ∀ fuel : Nat, 0 < fuel → NextDate fuel now dateStr rule = some (.ok date.Format)) ∧
    (∀ (rule tok : String) (rest : List String) (days months : List Int),
      Split rule ' ' = "m" :: tok :: rest → parseIntList tok = .ok days →
      validateMonthDays days = true → handleMonthly.months rest = .ok months →
      date.After now = true → monthlyMatch date days months →
      ∀ fuel : Nat, 0 < fuel → NextDate fuel now dateStr rule = some (.ok date.Format)) := by
  have hmid := Parse_midnight hdate
  refine ⟨?_, ?_, ?_⟩
  · intro rule tag params hrule htag fuel s h
    have hne : rule ≠ "" := rule_ne_empty hrule (by rcases htag with h | h <;> rw [h] <;> decide)
    rw [NextDate_dispatch fuel now hne hdate hrule] at h
    rcases htag with ht | ht <;> subst ht
    · rw [if_pos rfl] at h
      obtain ⟨r, a, b, c⟩ := handleDaily_later h
      exact ⟨r, a, by rw [b, hmid], (Time.after_iff _ _).2 c,
        fun u hu hf => Format_injective hu (by rw [b, hmid]) (hf.trans a)⟩
    · rw [if_neg (by decide), if_pos rfl] at h
      obtain ⟨r, a, b, c⟩ := handleYearly_later h
      exact ⟨r, a, by rw [b, hmid], (Time.after_iff _ _).2 c,
        fun u hu hf => Format_injective hu (by rw [b, hmid]) (hf.trans a)⟩
  · intro rule tok rest days hrule hlist hrange hafter hwd fuel hfuel
    obtain ⟨n, rfl⟩ : ∃ n, fuel = n + 1 := ⟨fuel - 1, by omega⟩
    rw [NextDate_dispatch (n + 1) now (rule_ne_empty hrule (by decide)) hdate hrule,
      if_neg (by decide), if_neg (by decide), if_pos rfl]
    have hstop := (weekly_stop_iff now days date).2 ⟨hafter, hwd⟩
    simp only [handleWeekly, parseWeekdays_ok hlist hrange, handleWeekly.loop, hstop, if_true]
  · intro rule tok rest days months hrule hlist hvalid hmonths hafter hmatch fuel hfuel
    obtain ⟨n, rfl⟩ : ∃ n, fuel = n + 1 := ⟨fuel - 1, by omega⟩
    have hstop := (monthly_stop_iff now days months date).2 ⟨hafter, hmatch⟩
    rw [NextDate_monthly_eq (n + 1) now hdate hrule hlist hvalid hmonths]
    simp only [scan, hstop, if_true]

/-- C8 at `now` = 2024-01-01 and start date 2024-01-15, a Monday: the general statement, and
the results of the code for a daily rule (a later day), and for a weekly and a monthly rule
for which the start date qualifies (the start date). -/
theorem NextDate_start_date_witness :
    ((∀ (rule tag : String) (params : List String), Split rule ' ' = tag :: params →
        tag = "d" ∨ tag = "y" → ∀ (fuel : Nat) (s : String),
        NextDate fuel (Date 2024 1 1 0 0 0 0) "20240115" rule = some (.ok s) →
        ∃ r : Time, s = r.Format ∧ r.ns % nsPerDay = 0 ∧
          r.After (Date 2024 1 15 0 0 0 0) = true ∧
          ∀ u : Time, u.ns % nsPerDay = 0 → u.Format = s → u = r) ∧
      (∀ (rule tok : String) (rest : List String) (days : List Int),
        Split rule ' ' = "w" :: tok :: rest → parseIntList tok = .ok days →
        (∀ d ∈ days, 1 ≤ d ∧ d ≤ 7) →
        (Date 2024 1 15 0 0 0 0).After (Date 2024 1 1 0 0 0 0) = true →
        (∃ a ∈ days, (Date 2024 1 15 0 0 0 0).Weekday = if a = 7 then 0 else a) →
        ∀ fuel : Nat, 0 < fuel →
          NextDate fuel (Date 2024 1 1 0 0 0 0) "20240115" rule
            = some (.ok (Date 2024 1 15 0 0 0 0).Format)) ∧
      (∀ (rule tok : String) (rest : List String) (days months : List Int),
        Split rule ' ' = "m" :: tok :: rest → parseIntList tok = .ok days →
        validateMonthDays days = true → handleMonthly.months rest = .ok months →
        (Date 2024 1 15 0 0 0 0).After (Date 2024 1 1 0 0 0 0) = true →
        monthlyMatch (Date 2024 1 15 0 0 0 0) days months →
        ∀ fuel : Nat, 0 < fuel →
          NextDate fuel (Date 2024 1 1 0 0 0 0) "20240115" rule
            = some (.ok (Date 2024 1 15 0 0 0 0).Format))) ∧
    NextDate 1 (Date 2024 1 1 0 0 0 0) "20240115" "d 3" = some (.ok "20240118") ∧
    NextDate 1 (Date 2024 1 1 0 0 0 0) "20240115" "y" = some (.ok "20250115") ∧
    NextDate 1 (Date 2024 1 1 0 0 0 0) "20240115" "w 1" = some (.ok "20240115") ∧
    NextDate 1 (Date 2024 1 1 0 0 0 0) "20240115" "m 15" = some (.ok "20240115") :=
  ⟨NextDate_start_date (Date 2024 1 1 0 0 0 0) "20240115" (Date 2024 1 15 0 0 0 0) (by rfl),
    by rfl, by rfl, by rfl, by rfl⟩

/-- C8 as stated fails for the monthly rule, whose loop tests the start date before it
advances, as the weekly loop does.  With `now` = 2024-01-01, start date 2024-01-15 and rule
`m 15` the code returns the start date itself, which is not strictly after the start
date. -/
theorem NextDate_start_date_counterexample :
    Parse "20240115" = .ok (Date 2024 1 15 0 0 0 0) ∧
    NextDate 1 (Date 2024 1 1 0 0 0 0) "20240115" "m 15"
      = some (.ok (Date 2024 1 15 0 0 0 0).Format) ∧
    (Date 2024 1 15 0 0 0 0).Format = "20240115" ∧
    (Date 2024 1 15 0 0 0 0).After (Date 2024 1 15 0 0 0 0) = false :=
  ⟨by rfl, by rfl, by rfl, by rfl⟩

end api

namespace api

open GoTime

/-! ## Monthly rules that never match -/

/-- The scan of a monthly rule whose test fails on every day never returns. -/
theorem NextDate_monthly_none {dateStr rule tok : String} {rest : List String} {date : Time}
    {days months : List Int} (fuel : Nat) (now : Time) (hdate : Parse dateStr = .ok date)
    (hrule : Split rule ' ' = "m" :: tok :: rest) (hlist : parseIntList tok = .ok days)
    (hvalid : validateMonthDays days = true) (hmonths : handleMonthly.months rest = .ok months)
    (hnever : ∀ t : Time, isValidMonthDay t days months = false) :
    NextDate fuel now dateStr rule = none := by
  rw [NextDate_monthly_eq fuel now hdate hrule hlist hvalid hmonths,
    scan_none fuel (by intro j; simp [hnever])]

/-- No day of February has a number above 29. -/
theorem never_in_february (sel : Int) (h : 29 < sel) (t : Time) :
    isValidMonthDay t [sel] [2] = false := by
  rw [← Bool.not_eq_true, isValidMonthDay_iff]
  rintro ⟨⟨s, hs, hm⟩, hmon⟩
  obtain ⟨_, _, _, hd, _⟩ := t.civil_spec
  simp only [List.mem_singleton] at hs
  subst hs
  rcases hmon with h0 | hmem
  · cases h0
  · simp only [List.mem_singleton] at hmem
    rw [hmem, daysIn_feb] at hd
    rcases hm with ⟨_, e⟩ | ⟨hneg, _⟩
    · split at hd <;> omega
    · omega

/-- No day lies in a month whose number is outside `1..12`. -/
theorem never_outside_year (days months : List Int) (hne : months ≠ [])
    (hout : ∀ m ∈ months, m < 1 ∨ 12 < m) (t : Time) :
    isValidMonthDay t days months = false := by
  rw [← Bool.not_eq_true, isValidMonthDay_iff]
  rintro ⟨_, hmon⟩
  obtain ⟨a, b, _, _, _⟩ := t.civil_spec
  rcases hmon with h0 | hmem
  · exact hne h0
  · have := hout _ hmem
    omega

/-- C9.  A monthly rule that passes validation but whose day selectors never occur in its
months is accepted without error and never yields a result: for every `now`, every start
date that parses and every fuel the scan is still running when the fuel runs out.  This holds
of `m 31 2` and `m 30 2`, of `m 1 13`, of every rule whose test `isValidMonthDay` is false on
every day, and so of every rule whose months list has only numbers outside `1..12`. -/
theorem NextDate_monthly_diverges (fuel : Nat) (now : Time) (dateStr : String) (date : Time)
    (hdate : Parse dateStr = .ok date) :
    NextDate fuel now dateStr "m 31 2" = none ∧
    NextDate fuel now dateStr "m 30 2" = none ∧
    NextDate fuel now dateStr "m 1 13" = none ∧
    ∀ (rule tok : String) (rest : List String) (days months : List Int),
      Split rule ' ' = "m" :: tok :: rest → parseIntList tok = .ok days →
      validateMonthDays days = true → handleMonthly.months rest = .ok months →
      ((∀ t : Time, isValidMonthDay t days months = false) →
        NextDate fuel now dateStr rule = none) ∧
      (months ≠ [] → (∀ m ∈ months, m < 1 ∨ 12 < m) →
        (∀ t : Time, isValidMonthDay t days months = false) ∧
          NextDate fuel now dateStr rule = none) := by
  refine ⟨?_, ?_, ?_, ?_⟩
  · exact @NextDate_monthly_none dateStr "m 31 2" "31" ["2"] date [31] [2]
      fuel now hdate (by rfl) (by rfl) (by rfl) (by rfl) (never_in_february 31 (by decide))
  · exact @NextDate_monthly_none dateStr "m 30 2" "30" ["2"] date [30] [2]
      fuel now hdate (by rfl) (by rfl) (by rfl) (by rfl) (never_in_february 30 (by decide))
  · exact @NextDate_monthly_none dateStr "m 1 13" "1" ["13"] date [1] [13]
      fuel now hdate (by rfl) (by rfl) (by rfl) (by rfl)
      (never_outside_year [1] [13] (by simp) (by simp))
  · intro rule tok rest days months hrule hlist hvalid hmonths
    refine ⟨fun hnever => NextDate_monthly_none fuel now hdate hrule hlist hvalid hmonths hnever,
      fun hne hout => ⟨never_outside_year days months hne hout,
        NextDate_monthly_none fuel now hdate hrule hlist hvalid hmonths
          (never_outside_year days months hne hout)⟩⟩

/-- C9 at `now` = 2024-01-01, start date 2024-01-05, with 1000 iterations of fuel. -/
theorem NextDate_monthly_diverges_witness :
    NextDate 1000 (Date 2024 1 1 0 0 0 0) "20240105" "m 31 2" = none ∧
    NextDate 1000 (Date 2024 1 1 0 0 0 0) "20240105" "m 30 2" = none ∧
    NextDate 1000 (Date 2024 1 1 0 0 0 0) "20240105" "m 1 13" = none ∧
    ∀ (rule tok : String) (rest : List String) (days months : List Int),
      Split rule ' ' = "m" :: tok :: rest → parseIntList tok = .ok days →
      validateMonthDays days = true → handleMonthly.months rest = .ok months →
      ((∀ t : Time, isValidMonthDay t days months = false) →
        NextDate 1000 (Date 2024 1 1 0 0 0 0) "20240105" rule = none) ∧
      (months ≠ [] → (∀ m ∈ months, m < 1 ∨ 12 < m) →
        (∀ t : Time, isValidMonthDay t days months = false) ∧
          NextDate 1000 (Date 2024 1 1 0 0 0 0) "20240105" rule = none) :=
  NextDate_monthly_diverges 1000 (Date 2024 1 1 0 0 0 0) "20240105" (Date 2024 1 5 0 0 0 0)
    (by rfl)

end api

namespace api

open GoTime

/-! ## Termination of the scans -/

theorem absDay_lt_next_year (t : Time) : t.absDay < daysSinceEpoch (t.Year + 1) := by
  obtain ⟨a, _, c⟩ := absYear_spec t.absDay
  rw [daysSinceEpoch_succ]
  unfold Time.Year
  omega

theorem daysSinceEpoch_mono {y y' : Int} (h : y ≤ y') : daysSinceEpoch y ≤ daysSinceEpoch y' := by
  rcases lt_or_eq_of_le h with hlt | rfl
  · have := daysSinceEpoch_lt hlt
    have := yearLen_pos y
    omega
  · exact le_refl _

theorem validateMonthDays_mem {days : List Int} (h : validateMonthDays days = true) :
    ∀ d ∈ days, d ≤ 31 ∧ d ≠ 0 ∧ -2 ≤ d := by
  induction days with
  | nil => simp
  | cons d ds ih =>
    simp only [validateMonthDays, maxMonthDay, minMonthDay] at h
    by_cases hd : d > 31 ∨ d = 0 ∨ d < -2
    · rw [if_pos hd] at h; cases h
    · rw [if_neg hd] at h
      intro x hx
      rcases List.mem_cons.1 hx with rfl | hx'
      · omega
      · exact ih h x hx'

/-- Every selector that passes validation occurs in January, and a January lies ahead of
every start date and every `now`: some day from the start date on is after `now` and matches
the selector. -/
theorem monthly_target (now date : Time) (hmid : date.ns % nsPerDay = 0) (sel : Int)
    (h31 : sel ≤ 31) (h0 : sel ≠ 0) (h2 : -2 ≤ sel) :
    ∃ K : Nat, (shift date K).After now = true ∧ selectorMatches (shift date K) sel := by
  generalize hY : max date.Year now.Year + 1 = Y
  generalize hd0 : (if sel > 0 then sel else 32 + sel) = d0
  have hd1 : 1 ≤ d0 ∧ d0 ≤ 31 := by rw [← hd0]; split <;> omega
  have hJan : daysIn 1 Y = 31 := by
    unfold daysIn; rw [if_neg (by omega)]; decide
  have hciv := Date_civil (y := Y) (m := 1) (d := d0) (by decide) (by decide) hd1.1
    (by rw [hJan]; exact hd1.2)
  have hge := dateToDays_ge (y := Y) (m := 1) (d := d0) (by decide) (by decide) hd1.1
    (by rw [hJan]; exact hd1.2)
  have hdate := absDay_lt_next_year date
  have hnow := absDay_lt_next_year now
  have hm1 : daysSinceEpoch (date.Year + 1) ≤ daysSinceEpoch Y :=
    daysSinceEpoch_mono (by rw [← hY]; omega)
  have hm2 : daysSinceEpoch (now.Year + 1) ≤ daysSinceEpoch Y :=
    daysSinceEpoch_mono (by rw [← hY]; omega)
  have hsplit := date.ns_split
  have hnsplit := now.ns_split
  have hlt : now.ns % nsPerDay < nsPerDay := Int.emod_lt_of_pos _ nsPerDay_pos
  have hT : shift date (((dateToDays Y 1 d0 - date.absDay).toNat : Nat) : Int)
      = Date Y 1 d0 0 0 0 0 := by
    apply Time.eq_of_ns
    simp only [shift, Date_ns]
    rw [Int.toNat_of_nonneg (by omega), sub_mul]
    omega
  refine ⟨(dateToDays Y 1 d0 - date.absDay).toNat, ?_, ?_⟩
  · rw [hT, Time.after_iff, Date_ns]
    have h1 : (now.absDay + 1) * nsPerDay ≤ dateToDays Y 1 d0 * nsPerDay :=
      mul_le_mul_of_nonneg_right (by omega) (le_of_lt nsPerDay_pos)
    rw [add_mul] at h1
    omega
  · rw [hT]
    unfold selectorMatches
    rw [hciv.1, hciv.2.1, hciv.2.2, hJan, ← hd0]
    by_cases hs : sel > 0
    · left; rw [if_pos hs]; exact ⟨hs, rfl⟩
    · right; rw [if_neg hs]; exact ⟨by omega, by ring⟩

/-- C10.  The day-by-day scans end for every satisfiable rule, for every `now` and every
start date that parses.  A weekly rule that passes validation returns, given enough fuel, a
day at most six days after the later of the start date and the day that follows `now`.  A
monthly rule that passes validation and has no months list returns, given enough fuel. -/
theorem NextDate_scans_terminate (now : Time) (dateStr tok : String) (date : Time)
    (days : List Int) (hdate : Parse dateStr = .ok date)
    (hlist : parseIntList tok = .ok days) :
    (∀ (rule : String) (rest : List String), Split rule ' ' = "w" :: tok :: rest →
      (∀ d ∈ days, 1 ≤ d ∧ d ≤ 7) →
      ∃ k : Nat, (date.AddDate 0 0 k).absDay ≤ max date.absDay (now.absDay + 1) + 6 ∧
        ∀ fuel : Nat, k < fuel →
          NextDate fuel now dateStr rule = some (.ok (date.AddDate 0 0 k).Format)) ∧
    (∀ rule : String, Split rule ' ' = ["m", tok] → validateMonthDays days = true →
      ∃ k : Nat, ∀ fuel : Nat, k < fuel →
        NextDate fuel now dateStr rule = some (.ok (date.AddDate 0 0 k).Format)) := by
  have hmid := Parse_midnight hdate
  constructor
  · intro rule rest hrule hrange
    obtain ⟨k, hk, _, _, hfuel⟩ := weekly_scan now date hmid days
      (parseIntList_ne_nil hlist) hrange
    refine ⟨k, ?_, ?_⟩
    · rw [Time.AddDate_days_absDay]; omega
    · intro fuel hf
      rw [NextDate_dispatch fuel now (rule_ne_empty hrule (by decide)) hdate hrule,
        if_neg (by decide), if_neg (by decide), if_pos rfl]
      simp only [handleWeekly, parseWeekdays_ok hlist hrange, hfuel fuel hf, addDate_days]
  · intro rule hrule hvalid
    obtain ⟨s, ss, rfl⟩ : ∃ s ss, days = s :: ss := by
      cases days with
      | nil => exact absurd rfl (parseIntList_ne_nil hlist)
      | cons s ss => exact ⟨s, ss, rfl⟩
    obtain ⟨h31, h0, h2⟩ := validateMonthDays_mem hvalid s (by simp)
    obtain ⟨K, hKa, hKm⟩ := monthly_target now date hmid s h31 h0 h2
    have hmatch : monthlyMatch (shift date K) (s :: ss) [] :=
      ⟨⟨s, by simp, hKm⟩, Or.inl rfl⟩
    obtain ⟨k, _, _, _, hfuel⟩ := scan_exists
      (fun d : Time => d.After now && isValidMonthDay d (s :: ss) []) date
      ((monthly_stop_iff now (s :: ss) [] (shift date K)).2 ⟨hKa, hmatch⟩)
    refine ⟨k, fun fuel hf => ?_⟩
    rw [@NextDate_monthly_eq dateStr rule tok [] date (s :: ss) [] fuel now hdate hrule hlist
        hvalid rfl,
      hfuel fuel hf, addDate_days]

/-- C10 at `now` = 2024-01-15, start date 2024-01-10 and the list `1,3`: the general
statement, and the results that the code computes there for the rules `w 1,3`, `m 1,3` and
`m 31`. -/
theorem NextDate_scans_terminate_witness :
    ((∀ (rule : String) (rest : List String), Split rule ' ' = "w" :: "1,3" :: rest →
        (∀ d ∈ [(1 : Int), 3], 1 ≤ d ∧ d ≤ 7) →
        ∃ k : Nat, ((Date 2024 1 10 0 0 0 0).AddDate 0 0 k).absDay
            ≤ max (Date 2024 1 10 0 0 0 0).absDay ((Date 2024 1 15 0 0 0 0).absDay + 1) + 6 ∧
          ∀ fuel : Nat, k < fuel →
            NextDate fuel (Date 2024 1 15 0 0 0 0) "20240110" rule
              = some (.ok ((Date 2024 1 10 0 0 0 0).AddDate 0 0 k).Format)) ∧
      (∀ rule : String, Split rule ' ' = ["m", "1,3"] → validateMonthDays [1, 3] = true →
        ∃ k : Nat, ∀ fuel : Nat, k < fuel →
          NextDate fuel (Date 2024 1 15 0 0 0 0) "20240110" rule
            = some (.ok ((Date 2024 1 10 0 0 0 0).AddDate 0 0 k).Format))) ∧
    NextDate 8 (Date 2024 1 15 0 0 0 0) "20240110" "w 1,3" = some (.ok "20240117") ∧
    NextDate 23 (Date 2024 1 15 0 0 0 0) "20240110" "m 1,3" = some (.ok "20240201") ∧
    NextDate 22 (Date 2024 1 15 0 0 0 0) "20240110" "m 31" = some (.ok "20240131") :=
  ⟨NextDate_scans_terminate (Date 2024 1 15 0 0 0 0) "20240110" "1,3"
    (Date 2024 1 10 0 0 0 0) [1, 3] (by rfl) (by rfl), by rfl, by rfl, by rfl⟩

end api

namespace GoTime

/-! ## `Parse` reads back what `Format` wrote -/

theorem toDigitsCore_fuel (fuel fuel' n : Nat) (h : n < fuel) (h' : n < fuel') :
    Nat.toDigitsCore 10 fuel n [] = Nat.toDigitsCore 10 fuel' n [] := by
  induction fuel generalizing fuel' n with
  | zero => omega
  | succ f ih =>
    obtain ⟨f', rfl⟩ : ∃ f', fuel' = f' + 1 := ⟨fuel' - 1, by omega⟩
    simp only [Nat.toDigitsCore]
    split
    · rfl
    · rw [toDigitsCore_append f, toDigitsCore_append f', ih f' (n / 10) (by omega) (by omega)]

theorem toDigits_small (n : Nat) (h : n < 10) : Nat.toDigits 10 n = [Nat.digitChar n] := by
  simp only [Nat.toDigits, Nat.toDigitsCore]
  rw [if_pos (by omega), Nat.mod_eq_of_lt h]

theorem toDigits_step (q r : Nat) (hq : 0 < q) (hr : r < 10) :
    Nat.toDigits 10 (10 * q + r) = Nat.toDigits 10 q ++ [Nat.digitChar r] := by
  simp only [Nat.toDigits, Nat.toDigitsCore]
  have e1 : (10 * q + r) / 10 = q := by omega
  have e2 : (10 * q + r) % 10 = r := by omega
  rw [if_neg (by omega), e1, e2, toDigitsCore_append,
    toDigitsCore_fuel (10 * q + r) (q + 1) q (by omega) (by omega)]
  simp only [Nat.toDigitsCore]

/-- The four characters that `appendInt` writes for a number below 10000. -/
theorem appendInt_four (n : Nat) (h : n < 10000) :
    appendInt (n : Int) 4 = [Nat.digitChar (n / 1000), Nat.digitChar (n / 100 % 10),
      Nat.digitChar (n / 10 % 10), Nat.digitChar (n % 10)] := by
  have hneg : ¬((n : Int) < 0) := by omega
  simp only [appendInt, Int.natAbs_ofNat, if_neg hneg, List.nil_append]
  by_cases h1 : n < 10
  · rw [toDigits_small n h1]
    have e1 : n / 1000 = 0 := by omega
    have e2 : n / 100 % 10 = 0 := by omega
    have e3 : n / 10 % 10 = 0 := by omega
    have e4 : n % 10 = n := by omega
    rw [e1, e2, e3, e4]; rfl
  · have s1 : n = 10 * (n / 10) + n % 10 := by omega
    by_cases h2 : n < 100
    · rw [s1, toDigits_step _ _ (by omega) (by omega), toDigits_small _ (by omega)]
      have e1 : (10 * (n / 10) + n % 10) / 1000 = 0 := by omega
      have e2 : (10 * (n / 10) + n % 10) / 100 % 10 = 0 := by omega
      have e3 : (10 * (n / 10) + n % 10) / 10 % 10 = n / 10 := by omega
      have e4 : (10 * (n / 10) + n % 10) % 10 = n % 10 := by omega
      rw [e1, e2, e3, e4]; rfl
    · have s2 : n / 10 = 10 * (n / 100) + n / 10 % 10 := by omega
      by_cases h3 : n < 1000
      · rw [s1, toDigits_step _ _ (by omega) (by omega), s2,
          toDigits_step _ _ (by omega) (by omega), toDigits_small _ (by omega)]
        have e1 : (10 * (10 * (n / 100) + n / 10 % 10) + n % 10) / 1000 = 0 := by omega
        have e2 : (10 * (10 * (n / 100) + n / 10 % 10) + n % 10) / 100 % 10 = n / 100 := by
          omega
        have e3 : (10 * (10 * (n / 100) + n / 10 % 10) + n % 10) / 10 % 10 = n / 10 % 10 := by
          omega
        have e4 : (10 * (10 * (n / 100) + n / 10 % 10) + n % 10) % 10 = n % 10 := by omega
        rw [e1, e2, e3, e4]; rfl
      · have s3 : n / 100 = 10 * (n / 1000) + n / 100 % 10 := by omega
        rw [s1, toDigits_step _ _ (by omega) (by omega), s2,
          toDigits_step _ _ (by omega) (by omega), s3,
          toDigits_step _ _ (by omega) (by omega), toDigits_small _ (by omega)]
        have e1 : (10 * (10 * (10 * (n / 1000) + n / 100 % 10) + n / 10 % 10) + n % 10) / 1000
            = n / 1000 := by omega
        have e2 : (10 * (10 * (10 * (n / 1000) + n / 100 % 10) + n / 10 % 10) + n % 10) / 100
            % 10 = n / 100 % 10 := by omega
        have e3 : (10 * (10 * (10 * (n / 1000) + n / 100 % 10) + n / 10 % 10) + n % 10) / 10
            % 10 = n / 10 % 10 := by omega
        have e4 : (10 * (10 * (10 * (n / 1000) + n / 100 % 10) + n / 10 % 10) + n % 10) % 10
            = n % 10 := by omega
        rw [e1, e2, e3, e4]; rfl

end GoTime

namespace GoTime

theorem digitChar_digit : ∀ k : Nat, k < 10 →
    isDigit (Nat.digitChar k) = true ∧ digitVal (Nat.digitChar k) = (k : Int) ∧
      Nat.digitChar k = Char.ofNat (48 + k) := by
  decide

/-- A decimal digit is the character of its value. -/
theorem isDigit_digitChar {c : Char} (h : isDigit c = true) :
    ∃ k : Nat, k < 10 ∧ c = Nat.digitChar k := by
  simp only [isDigit, decide_eq_true_eq] at h
  refine ⟨c.toNat - 48, by omega, ?_⟩
  rw [(digitChar_digit (c.toNat - 48) (by omega)).2.2]
  have : 48 + (c.toNat - 48) = c.toNat := by omega
  rw [this, Char.ofNat_toNat]

theorem appendInt_two : ∀ b : Nat, b < 100 →
    appendInt ((b : Nat) : Int) 2 = [Nat.digitChar (b / 10), Nat.digitChar (b % 10)] := by
  decide!

/-- `Parse` on eight decimal digits. -/
theorem Parse_digits (k1 k2 k3 k4 k5 k6 k7 k8 : Nat) (h1 : k1 < 10) (h2 : k2 < 10)
    (h3 : k3 < 10) (h4 : k4 < 10) (h5 : k5 < 10) (h6 : k6 < 10) (h7 : k7 < 10) (h8 : k8 < 10) :
    Parse (String.mk [Nat.digitChar k1, Nat.digitChar k2, Nat.digitChar k3, Nat.digitChar k4,
        Nat.digitChar k5, Nat.digitChar k6, Nat.digitChar k7, Nat.digitChar k8])
      = if (k5 : Int) * 10 + k6 ≤ 0 ∨ 12 < (k5 : Int) * 10 + k6 then .error .parse
        else if (k7 : Int) * 10 + k8 < 1 ∨ (k7 : Int) * 10 + k8
            > daysIn ((k5 : Int) * 10 + k6) ((k1 : Int) * 1000 + k2 * 100 + k3 * 10 + k4)
          then .error .parse
        else .ok (Date ((k1 : Int) * 1000 + k2 * 100 + k3 * 10 + k4) ((k5 : Int) * 10 + k6)
          ((k7 : Int) * 10 + k8) 0 0 0 0) := by
  obtain ⟨a1, b1, _⟩ := digitChar_digit k1 h1
  obtain ⟨a2, b2, _⟩ := digitChar_digit k2 h2
  obtain ⟨a3, b3, _⟩ := digitChar_digit k3 h3
  obtain ⟨a4, b4, _⟩ := digitChar_digit k4 h4
  obtain ⟨a5, b5, _⟩ := digitChar_digit k5 h5
  obtain ⟨a6, b6, _⟩ := digitChar_digit k6 h6
  obtain ⟨a7, b7, _⟩ := digitChar_digit k7 h7
  obtain ⟨a8, b8, _⟩ := digitChar_digit k8 h8
  simp only [Parse, a1, a2, a3, a4, a5, a6, a7, a8, b1, b2, b3, b4, b5, b6, b7, b8,
    Bool.and_self, if_true]

/-- The formatted date of an instant at midnight in a year of at most four digits parses
back to the instant. -/
theorem Parse_Format {t : Time} (hmid : t.ns % nsPerDay = 0) (h0 : 0 ≤ t.Year)
    (h9 : t.Year ≤ 9999) : Parse t.Format = .ok t := by
  obtain ⟨m1, m2, d1, d2, e⟩ := t.civil_spec
  have hd31 := monthLen_le (isLeap t.Year) t.Month
  rw [monthLen_isLeap] at hd31
  obtain ⟨y, hy⟩ : ∃ y : Nat, t.Year = y := ⟨t.Year.toNat, by omega⟩
  obtain ⟨m, hm⟩ : ∃ m : Nat, t.Month = m := ⟨t.Month.toNat, by omega⟩
  obtain ⟨d, hd⟩ : ∃ d : Nat, t.Day = d := ⟨t.Day.toNat, by omega⟩
  have hF : t.Format = String.mk [Nat.digitChar (y / 1000), Nat.digitChar (y / 100 % 10),
      Nat.digitChar (y / 10 % 10), Nat.digitChar (y % 10), Nat.digitChar (m / 10),
      Nat.digitChar (m % 10), Nat.digitChar (d / 10), Nat.digitChar (d % 10)] := by
    simp only [Time.Format, hy, hm, hd]
    rw [appendInt_four y (by omega), appendInt_two m (by omega), appendInt_two d (by omega)]
    rfl
  rw [hF, Parse_digits _ _ _ _ _ _ _ _ (by omega) (by omega) (by omega) (by omega) (by omega)
    (by omega) (by omega) (by omega)]
  have ey : ((y / 1000 : Nat) : Int) * 1000 + ((y / 100 % 10 : Nat) : Int) * 100
      + ((y / 10 % 10 : Nat) : Int) * 10 + ((y % 10 : Nat) : Int) = t.Year := by
    rw [hy]; omega
  have em : ((m / 10 : Nat) : Int) * 10 + ((m % 10 : Nat) : Int) = t.Month := by
    rw [hm]; omega
  have ed : ((d / 10 : Nat) : Int) * 10 + ((d % 10 : Nat) : Int) = t.Day := by
    rw [hd]; omega
  rw [ey, em, ed, if_neg (by omega), if_neg (by omega)]
  congr 1
  cases t with
  | mk ns =>
    simp only [Date, Time.mk.injEq]
    have hs := Time.ns_split ⟨ns⟩
    simp only at hs hmid
    rw [e]
    omega

/-- A date string that parses is the formatted date of the instant it parses to. -/
theorem Format_Parse {value : String} {t : Time} (h : Parse value = .ok t) :
    t.Format = value := by
  unfold Parse at h
  split at h
  · rename_i c1 c2 c3 c4 c5 c6 c7 c8 hdata
    split at h
    · rename_i hdig
      simp only [Bool.and_eq_true] at hdig
      obtain ⟨⟨⟨⟨⟨⟨⟨g1, g2⟩, g3⟩, g4⟩, g5⟩, g6⟩, g7⟩, g8⟩ := hdig
      obtain ⟨k1, h1, rfl⟩ := isDigit_digitChar g1
      obtain ⟨k2, h2, rfl⟩ := isDigit_digitChar g2
      obtain ⟨k3, h3, rfl⟩ := isDigit_digitChar g3
      obtain ⟨k4, h4, rfl⟩ := isDigit_digitChar g4
      obtain ⟨k5, h5, rfl⟩ := isDigit_digitChar g5
      obtain ⟨k6, h6, rfl⟩ := isDigit_digitChar g6
      obtain ⟨k7, h7, rfl⟩ := isDigit_digitChar g7
      obtain ⟨k8, h8, rfl⟩ := isDigit_digitChar g8
      simp only [(digitChar_digit k1 h1).2.1, (digitChar_digit k2 h2).2.1,
        (digitChar_digit k3 h3).2.1, (digitChar_digit k4 h4).2.1, (digitChar_digit k5 h5).2.1,
        (digitChar_digit k6 h6).2.1, (digitChar_digit k7 h7).2.1,
        (digitChar_digit k8 h8).2.1] at h
      split at h
      · cases h
      · rename_i hmonth
        split at h
        · cases h
        · rename_i hday
          cases h
          obtain ⟨ey, em, ed⟩ := api.Date_civil
            (y := (k1 : Int) * 1000 + k2 * 100 + k3 * 10 + k4) (m := (k5 : Int) * 10 + k6)
            (d := (k7 : Int) * 10 + k8) (by omega) (by omega) (by omega) (by omega)
          have hv : value = String.mk value.data := rfl
          rw [hv, hdata]
          simp only [Time.Format, ey, em, ed]
          have cy : (k1 : Int) * 1000 + k2 * 100 + k3 * 10 + k4
              = ((k1 * 1000 + k2 * 100 + k3 * 10 + k4 : Nat) : Int) := by push_cast; ring
          have cm : (k5 : Int) * 10 + k6 = ((k5 * 10 + k6 : Nat) : Int) := by push_cast; ring
          have cd : (k7 : Int) * 10 + k8 = ((k7 * 10 + k8 : Nat) : Int) := by push_cast; ring
          rw [cy, cm, cd, appendInt_four _ (by omega), appendInt_two _ (by omega),
            appendInt_two _ (by omega)]
          have f1 : (k1 * 1000 + k2 * 100 + k3 * 10 + k4) / 1000 = k1 := by omega
          have f2 : (k1 * 1000 + k2 * 100 + k3 * 10 + k4) / 100 % 10 = k2 := by omega
          have f3 : (k1 * 1000 + k2 * 100 + k3 * 10 + k4) / 10 % 10 = k3 := by omega
          have f4 : (k1 * 1000 + k2 * 100 + k3 * 10 + k4) % 10 = k4 := by omega
          have f5 : (k5 * 10 + k6) / 10 = k5 := by omega
          have f6 : (k5 * 10 + k6) % 10 = k6 := by omega
          have f7 : (k7 * 10 + k8) / 10 = k7 := by omega
          have f8 : (k7 * 10 + k8) % 10 = k8 := by omega
          rw [f1, f2, f3, f4, f5, f6, f7, f8]
          rfl
    · cases h
  · cases h

end GoTime

namespace api

open GoTime

/-! ## Validation of the date of a task -/

theorem normalizeDate_ns (t : Time) : (normalizeDate t).ns = t.absDay * nsPerDay := by
  obtain ⟨_, _, _, _, e⟩ := t.civil_spec
  rw [normalizeDate, Date_ns, e]

theorem normalizeDate_midnight (t : Time) : (normalizeDate t).ns % nsPerDay = 0 := by
  rw [normalizeDate_ns]; exact Int.mul_emod_left _ _

/-- `normalizeDate` keeps an instant at midnight. -/
theorem normalizeDate_of_midnight {t : Time} (h : t.ns % nsPerDay = 0) : normalizeDate t = t := by
  apply Time.eq_of_ns
  have hs := t.ns_split
  rw [normalizeDate_ns]; omega

/-- A date that `NextDate` returns is the formatted date of a day after `now`. -/
theorem NextDate_ok {fuel : Nat} {now : Time} {dateStr rule s : String}
    (h : NextDate fuel now dateStr rule = some (.ok s)) :
    ∃ r : Time, s = r.Format ∧ r.ns % nsPerDay = 0 ∧ r.After now = true := by
  unfold NextDate at h
  split at h
  · cases h
  · split at h
    · cases h
    · rename_i date hdate
      have hmid := Parse_midnight hdate
      split at h
      · cases h
      · split at h
        · obtain ⟨r, a, b, c⟩ := handleDaily_ok h; exact ⟨r, a, by rw [b, hmid], c⟩
        · split at h
          · obtain ⟨r, a, b, c⟩ := handleYearly_ok h; exact ⟨r, a, by rw [b, hmid], c⟩
          · split at h
            · obtain ⟨r, a, b, c⟩ := handleWeekly_ok h; exact ⟨r, a, by rw [b, hmid], c⟩
            · split at h
              · obtain ⟨r, a, b, c⟩ := handleMonthly_ok h
                exact ⟨r, a, by rw [b, hmid], c⟩
              · cases h

/-- `validateAndAdjustDate` on a task whose date parses: the comparison with today and the
three ways on from it. -/
theorem validateAndAdjustDate_eq (fuel : Nat) (timeNow : Time) (task : db.Task)
    (parsed : Time) (hne : task.Date ≠ "") (hp : Parse task.Date = .ok parsed) :
    validateAndAdjustDate fuel timeNow task =
      if parsed.Before (normalizeDate timeNow) = true then
        if task.Repeat = "" then
          some ({ task with Date := (normalizeDate timeNow).Format }, none)
        else
          match NextDate fuel (normalizeDate timeNow) task.Date task.Repeat with
          | none => none
          | some (.error err) => some (task, some (.nextDateFailed err))
          | some (.ok next) => some ({ task with Date := next }, none)
      else some (task, none) := by
  unfold validateAndAdjustDate
  rw [if_neg hne, hp]
  simp only [normalizeDate_of_midnight (Parse_midnight hp)]

theorem before_false_of_after {r now : Time} (h : r.After now = true) : r.Before now = false := by
  rw [Time.after_iff] at h
  simp only [Time.Before, decide_eq_false_iff_not]; omega

end api

namespace api

open GoTime

/-- C11, as the code has it.  With `timeNow` the reading of the clock and today its day at
midnight, for every task with a non-empty `Date`: `validateAndAdjustDate` never modifies
`ID`, `Title`, `Comment` and `Repeat`, and leaves the task unchanged when it returns an
error.  When it returns without error, the `Date` of the task parsed and is now the
formatted date of a day not before today, a canonical date (one that parses back to that
day) whenever the year of that day is in `0..9999`; a `Date` not before today is left
unchanged, a past `Date` with empty `Repeat` becomes today, and a past `Date` with a
`Repeat` that is not empty becomes the result of `NextDate(today, Date, Repeat)`.  The call
returns unless that call of `NextDate` is still running. -/
theorem validateAndAdjustDate_spec (fuel : Nat) (timeNow : Time) (task : db.Task)
    (hne : task.Date ≠ "") :
    (∀ (task' : db.Task) (err : Option TaskError),
      validateAndAdjustDate fuel timeNow task = some (task', err) →
      task'.ID = task.ID ∧ task'.Title = task.Title ∧ task'.Comment = task.Comment ∧
      task'.Repeat = task.Repeat ∧
      (err ≠ none → task' = task) ∧
      (err = none →
        ∃ parsed d : Time, Parse task.Date = .ok parsed ∧
          task'.Date = d.Format ∧ d.ns % nsPerDay = 0 ∧
          d.Before (normalizeDate timeNow) = false ∧
          (0 ≤ d.Year → d.Year ≤ 9999 → Parse task'.Date = .ok d) ∧
          (parsed.Before (normalizeDate timeNow) = false → task' = task) ∧
          (parsed.Before (normalizeDate timeNow) = true → task.Repeat = "" →
            task'.Date = (normalizeDate timeNow).Format) ∧
          (parsed.Before (normalizeDate timeNow) = true → task.Repeat ≠ "" →
            NextDate fuel (normalizeDate timeNow) task.Date task.Repeat
              = some (.ok task'.Date)))) ∧
    (validateAndAdjustDate fuel timeNow task = none ↔
      ∃ parsed, Parse task.Date = .ok parsed ∧
        parsed.Before (normalizeDate timeNow) = true ∧ task.Repeat ≠ "" ∧
        NextDate fuel (normalizeDate timeNow) task.Date task.Repeat = none) := by
  cases hp : Parse task.Date with
  | error e =>
    have hv : validateAndAdjustDate fuel timeNow task
        = some (task, some (.invalidDateFormat e)) := by
      unfold validateAndAdjustDate
      rw [if_neg hne, hp]
    rw [hv]
    refine ⟨?_, ?_⟩
    · intro task' err h
      simp only [Option.some.injEq, Prod.mk.injEq] at h
      obtain ⟨rfl, rfl⟩ := h
      exact ⟨rfl, rfl, rfl, rfl, fun _ => rfl, fun h => by cases h⟩
    · constructor
      · intro h; cases h
      · rintro ⟨parsed, h, _⟩; cases h
  | ok parsed =>
    have hmid := Parse_midnight hp
    rw [validateAndAdjustDate_eq fuel timeNow task parsed hne hp]
    by_cases hb : parsed.Before (normalizeDate timeNow) = true
    · rw [if_pos hb]
      by_cases hr : task.Repeat = ""
      · rw [if_pos hr]
        refine ⟨?_, ?_⟩
        · intro task' err h
          simp only [Option.some.injEq, Prod.mk.injEq] at h
          obtain ⟨rfl, rfl⟩ := h
          refine ⟨rfl, rfl, rfl, rfl, fun h => absurd rfl h, fun _ => ?_⟩
          refine ⟨parsed, normalizeDate timeNow, rfl, rfl, normalizeDate_midnight timeNow,
            by simp [Time.Before], ?_, ?_, fun _ _ => rfl, fun _ h => absurd hr h⟩
          · intro h0 h9
            exact Parse_Format (normalizeDate_midnight timeNow) h0 h9
          · intro h; rw [hb] at h; cases h
        · constructor
          · intro h; cases h
          · rintro ⟨_, _, _, h, _⟩; exact absurd hr h
      · rw [if_neg hr]
        cases hN : NextDate fuel (normalizeDate timeNow) task.Date task.Repeat with
        | none =>
          refine ⟨?_, ?_⟩
          · intro task' err h; cases h
          · constructor
            · intro _; exact ⟨parsed, rfl, hb, hr, rfl⟩
            · intro _; rfl
        | some res =>
          cases res with
          | error e =>
            refine ⟨?_, ?_⟩
            · intro task' err h
              simp only [Option.some.injEq, Prod.mk.injEq] at h
              obtain ⟨rfl, rfl⟩ := h
              exact ⟨rfl, rfl, rfl, rfl, fun _ => rfl, fun h => by cases h⟩
            · constructor
              · intro h; cases h
              · rintro ⟨_, _, _, _, h⟩; cases h
          | ok next =>
            obtain ⟨r, hs, hrm, hra⟩ := NextDate_ok hN
            refine ⟨?_, ?_⟩
            · intro task' err h
              simp only [Option.some.injEq, Prod.mk.injEq] at h
              obtain ⟨rfl, rfl⟩ := h
              refine ⟨rfl, rfl, rfl, rfl, fun h => absurd rfl h, fun _ => ?_⟩
              refine ⟨parsed, r, rfl, hs, hrm, before_false_of_after hra, ?_, ?_,
                fun _ h => absurd h hr, fun _ _ => rfl⟩
              · intro h0 h9
                show Parse next = .ok r
                rw [hs]; exact Parse_Format hrm h0 h9
              · intro h; rw [hb] at h; cases h
            · constructor
              · intro h; cases h
              · rintro ⟨_, _, _, _, h⟩; cases h
    · rw [if_neg hb]
      have hb' : parsed.Before (normalizeDate timeNow) = false := by
        simpa using hb
      refine ⟨?_, ?_⟩
      · intro task' err h
        simp only [Option.some.injEq, Prod.mk.injEq] at h
        obtain ⟨rfl, rfl⟩ := h
        refine ⟨rfl, rfl, rfl, rfl, fun _ => rfl, fun _ => ?_⟩
        exact ⟨parsed, parsed, rfl, (Format_Parse hp).symm, hmid, hb', fun _ _ => hp,
          fun _ => rfl, fun h => absurd h hb, fun h => absurd h hb⟩
      · constructor
        · intro h; cases h
        · rintro ⟨p, hp', h, _⟩
          cases hp'
          exact absurd h hb

/-- C11 at the clock reading 2024-01-15 10:30 for a task due on 2024-01-10 that repeats every
three days: the general statement, and the outcomes that the code computes there, for the
same task without `Repeat`, for a task due on 2024-01-20, for a date that does not parse and
for a rule that `NextDate` rejects. -/
theorem validateAndAdjustDate_spec_witness :
    ((∀ (task' : db.Task) (err : Option TaskError),
        validateAndAdjustDate 2 (Date 2024 1 15 10 30 0 0) (sampleTask "20240110" "d 3")
          = some (task', err) →
        task'.ID = (sampleTask "20240110" "d 3").ID ∧
        task'.Title = (sampleTask "20240110" "d 3").Title ∧
        task'.Comment = (sampleTask "20240110" "d 3").Comment ∧
        task'.Repeat = (sampleTask "20240110" "d 3").Repeat ∧
        (err ≠ none → task' = sampleTask "20240110" "d 3") ∧
        (err = none →
          ∃ parsed d : Time, Parse (sampleTask "20240110" "d 3").Date = .ok parsed ∧
            task'.Date = d.Format ∧ d.ns % nsPerDay = 0 ∧
            d.Before (normalizeDate (Date 2024 1 15 10 30 0 0)) = false ∧
            (0 ≤ d.Year → d.Year ≤ 9999 → Parse task'.Date = .ok d) ∧
            (parsed.Before (normalizeDate (Date 2024 1 15 10 30 0 0)) = false →
              task' = sampleTask "20240110" "d 3") ∧
            (parsed.Before (normalizeDate (Date 2024 1 15 10 30 0 0)) = true →
              (sampleTask "20240110" "d 3").Repeat = "" →
              task'.Date = (normalizeDate (Date 2024 1 15 10 30 0 0)).Format) ∧
            (parsed.Before (normalizeDate (Date 2024 1 15 10 30 0 0)) = true →
              (sampleTask "20240110" "d 3").Repeat ≠ "" →
              NextDate 2 (normalizeDate (Date 2024 1 15 10 30 0 0))
                  (sampleTask "20240110" "d 3").Date (sampleTask "20240110" "d 3").Repeat
                = some (.ok task'.Date)))) ∧
      (validateAndAdjustDate 2 (Date 2024 1 15 10 30 0 0) (sampleTask "20240110" "d 3") = none ↔
        ∃ parsed, Parse (sampleTask "20240110" "d 3").Date = .ok parsed ∧
          parsed.Before (normalizeDate (Date 2024 1 15 10 30 0 0)) = true ∧
          (sampleTask "20240110" "d 3").Repeat ≠ "" ∧
          NextDate 2 (normalizeDate (Date 2024 1 15 10 30 0 0))
              (sampleTask "20240110" "d 3").Date (sampleTask "20240110" "d 3").Repeat
            = none)) ∧
    validateAndAdjustDate 2 (Date 2024 1 15 10 30 0 0) (sampleTask "20240110" "d 3")
      = some (sampleTask "20240116" "d 3", none) ∧
    validateAndAdjustDate 2 (Date 2024 1 15 10 30 0 0) (sampleTask "20240110" "")
      = some (sampleTask "20240115" "", none) ∧
    validateAndAdjustDate 2 (Date 2024 1 15 10 30 0 0) (sampleTask "20240120" "d 3")
      = some (sampleTask "20240120" "d 3", none) ∧
    validateAndAdjustDate 2 (Date 2024 1 15 10 30 0 0) (sampleTask "2024-01-20" "d 3")
      = some (sampleTask "2024-01-20" "d 3", some (.invalidDateFormat .parse)) ∧
    validateAndAdjustDate 2 (Date 2024 1 15 10 30 0 0) (sampleTask "20240110" "d 500")
      = some (sampleTask "20240110" "d 500", some (.nextDateFailed .daysTooLarge)) :=
  ⟨validateAndAdjustDate_spec 2 (Date 2024 1 15 10 30 0 0) (sampleTask "20240110" "d 3")
    (by decide), by rfl, by rfl, by rfl, by rfl, by rfl⟩

/-- C11 as stated fails at the end of the four-digit years.  With today = 9999-12-31 a task
due on 9999-12-30 that repeats daily is moved, without error, to the first day of the year
10000, whose formatted date has nine characters and does not parse: it is not a canonical
date. -/
theorem validateAndAdjustDate_spec_counterexample :
    validateAndAdjustDate 2 (Date 9999 12 31 0 0 0 0) (sampleTask "99991230" "d 1")
      = some (sampleTask "100000101" "d 1", none) ∧
    (Date 10000 1 1 0 0 0 0).Format = "100000101" ∧
    Parse "100000101" = .error .parse ∧
    ¬∃ d : Time, Parse (sampleTask "100000101" "d 1").Date = .ok d :=
  ⟨by rfl, by rfl, by rfl, by rintro ⟨d, h⟩; cases h⟩

/-- For a task with a title and a date, `validateTask` is `validateAndAdjustDate`. -/
theorem validateTask_eq (fuel : Nat) (timeNow timeNow2 : Time) (task : db.Task)
    (ht : task.Title ≠ "") (hd : task.Date ≠ "") :
    validateTask fuel timeNow timeNow2 task = validateAndAdjustDate fuel timeNow2 task := by
  unfold validateTask
  rw [if_neg ht]
  simp only [hd, and_false, if_false]

end api
